import Mathlib

/-!
Verification of the file-purge daemon (`purge.py`) against its specification.

The development shallowly embeds the purge cycle of class `FilePurger`:
the filesystem is a finite tree of named entries; stat / unlink / rmdir are
modelled as pure operations on that tree, with per-entry Boolean flags
standing for the environment conditions that make the corresponding OS call
raise (permission denied on `stat` during the scan, `stat` failing again at
metadata-capture time, `unlink` failing, `rmdir` failing).  Time is modelled
in integer seconds; `st_mtime` and `time.time()` are integers, and the
floating-point age in days computed by `get_file_age_days` is the exact
rational `(now - mtime) / 86400`.  Python's float comparison
`age_days > max_age_days` is embedded as the equivalent integer comparison
`now - mtime > max_age_days * 86400` (the equivalence over the exact
rationals is proved in `is_older_than_iff_age_gt`).  Log output and the
Discord transport are not modelled; the notification VALUE handed to
`DiscordNotifier.send_notification` is modelled structurally (title, counts,
truncated lists, colour), with the literal German message text and the
`.1f` / `.0f` decimal renderings abstracted into the exact numbers they
would render.
-/

namespace FilePurge

/-- A path relative to the target root directory, as a list of components.
The target root itself is `[]`. -/
abbrev Path := List String

/-- Stat data of a regular file (or of the regular-file target of a symlink),
together with the environment flags saying which OS calls on it raise:
`statFailsScan` makes the `stat` issued during `find_old_files`
(via `is_file` / `get_file_age_days`) raise a non-ignored `OSError`;
`statFailsMeta` makes the `stat` issued later, at metadata-capture time in
`run_purge`, raise; `unlinkFails` makes `unlink` raise. -/
structure FileAttrs where
  mtime : ℤ
  size : ℕ
  statFailsScan : Bool
  statFailsMeta : Bool
  unlinkFails : Bool
deriving DecidableEq, Repr

mutual
/-- A filesystem tree: regular files, directories (with an `rmdirFails` flag
making `rmdir` raise), symlinks that resolve to a regular file (Python's
`Path.is_file` follows symlinks, so these pass the `is_file` test), and
`special` for anything else (sockets, fifos, broken symlinks, ...), for which
`is_file` and `is_dir` are both false. -/
inductive FSTree where
  | file (a : FileAttrs)
  | dir (rmdirFails : Bool) (children : FSList)
  | linkToFile (a : FileAttrs)
  | special

/-- The ordered list of named children of a directory, in `os.scandir` order. -/
inductive FSList where
  | nil
  | cons (name : String) (t : FSTree) (rest : FSList)
end

/-- Node-local information of a tree entry, i.e. what one `rglob` hit exposes
without descending into it. -/
inductive EntryInfo where
  | file (a : FileAttrs)
  | dir (rmdirFails : Bool)
  | linkToFile (a : FileAttrs)
  | special
deriving DecidableEq, Repr

/-- Node-local information of a tree node. -/
def FSTree.info : FSTree → EntryInfo
  | .file a => .file a
  | .dir b _ => .dir b
  | .linkToFile a => .linkToFile a
  | .special => .special

/-- First child with the given name, as `os` path resolution finds it. -/
def FSList.childNamed (n : String) : FSList → Option FSTree
  | .nil => none
  | .cons m t rest => if m = n then some t else FSList.childNamed n rest

/-- Drop every child with the given name (the effect of `unlink` / `rmdir`
on the parent directory listing; in a well-formed tree there is at most one). -/
def FSList.removeName (n : String) : FSList → FSList
  | .nil => .nil
  | .cons m t rest =>
      if m = n then FSList.removeName n rest
      else .cons m t (FSList.removeName n rest)

/-- Replace the tree of every child with the given name by `t'` (modelling an
in-place mutation inside child `n`; in a well-formed tree there is at most
one such child). -/
def FSList.replaceName (n : String) (t' : FSTree) : FSList → FSList
  | .nil => .nil
  | .cons m t rest =>
      if m = n then .cons m t' (FSList.replaceName n t' rest)
      else .cons m t (FSList.replaceName n t' rest)

/-- Names of the children, in order. -/
def FSList.childNames : FSList → List String
  | .nil => []
  | .cons m _ rest => m :: FSList.childNames rest

/-- Emptiness of a directory listing: `not any(directory.iterdir())`. -/
def FSList.isNil : FSList → Bool
  | .nil => true
  | .cons _ _ _ => false

/-- Boolean no-duplicates check on a list of names. -/
def namesNodup : List String → Bool
  | [] => true
  | n :: rest => !(rest.contains n) && namesNodup rest

mutual
/-- Well-formedness of a tree as a real filesystem: sibling names are
distinct in every directory. -/
def wf : FSTree → Bool
  | .dir _ cs => namesNodup (FSList.childNames cs) && wfL cs
  | _ => true

/-- Well-formedness of every tree in a child list. -/
def wfL : FSList → Bool
  | .nil => true
  | .cons _ t rest => wf t && wfL rest
end

/-- Resolve a root-relative path in a tree (each step is an `os` directory
lookup; paths through non-directories do not resolve). -/
def lookup : Path → FSTree → Option FSTree
  | [], t => some t
  | n :: rest, .dir _ cs =>
      match FSList.childNamed n cs with
      | some c => lookup rest c
      | none => none
  | _ :: _, _ => none

/-- Remove the filesystem object at the given path (the tree-level effect of
`unlink` on a non-directory or `rmdir` on an empty directory).  Paths that do
not resolve leave the tree unchanged, and removing `[]` (the root) is not an
operation the program performs. -/
def removePath : Path → FSTree → FSTree
  | [], t => t
  | [n], .dir b cs => .dir b (FSList.removeName n cs)
  | n :: rest, .dir b cs =>
      match FSList.childNamed n cs with
      | some c => .dir b (FSList.replaceName n (removePath rest c) cs)
      | none => .dir b cs
  | _ :: _, t => t

/-- Entries contributed by the children of one directory during `rglob`:
pathlib yields, for each directory in pre-order, all of that directory's
children. -/
def childEntries (p : Path) : FSList → List (Path × EntryInfo)
  | .nil => []
  | .cons n t rest => (p ++ [n], FSTree.info t) :: childEntries p rest

mutual
/-- All entries below a node in `Path.rglob('*')` order: the children of the
node, then recursively the entries below each child subdirectory, in child
order.  Every entry strictly below the root is yielded exactly once. -/
def rglobEntries (p : Path) : FSTree → List (Path × EntryInfo)
  | .dir _ cs => childEntries p cs ++ rglobSub p cs
  | _ => []

/-- Entries below each subdirectory of a child list, in order. -/
def rglobSub (p : Path) : FSList → List (Path × EntryInfo)
  | .nil => []
  | .cons n t rest => rglobEntries (p ++ [n]) t ++ rglobSub p rest
end

/-- `get_file_age_days` (purge.py:75-79): age of a file in days from its
modification time, `(time.time() - mtime) / 86400`, as an exact rational. -/
def get_file_age_days (now mtime : ℤ) : ℚ :=
  ((now - mtime : ℤ) : ℚ) / 86400

/-- The comparison `age_days > self.max_age_days` of `find_old_files`
(purge.py:89), carried out on integer seconds; `is_older_than_iff_age_gt`
proves it equal to the comparison of the exact rational age with the
threshold. -/
def is_older_than (now mtime maxAge : ℤ) : Bool :=
  decide (now - mtime > maxAge * 86400)

/-- Whether the scan-time `stat` of this entry raises a non-ignored error
(`Path.is_file` propagates e.g. permission errors, and
`get_file_age_days` calls `stat` unguarded). -/
def EntryInfo.raisesScanStat : EntryInfo → Bool
  | .file a => a.statFailsScan
  | .linkToFile a => a.statFailsScan
  | _ => false

/-- Result of `item.is_file()` when its `stat` does not raise: true for
regular files and for symlinks resolving to regular files. -/
def EntryInfo.isFileLike : EntryInfo → Bool
  | .file _ => true
  | .linkToFile _ => true
  | _ => false

/-- Modification time `stat` reports for a file-like entry (unused default
for directories and special files, which never reach the age test). -/
def EntryInfo.mtimeOf : EntryInfo → ℤ
  | .file a => a.mtime
  | .linkToFile a => a.mtime
  | _ => 0

/-- Whether an entry passes the `if item.is_file()` and age test of
`find_old_files` and is appended to `old_files`. -/
def isCandidate (now maxAge : ℤ) (e : Path × EntryInfo) : Bool :=
  e.2.isFileLike && is_older_than now e.2.mtimeOf maxAge

/-- The `for item in self.target_dir.rglob('*')` loop body of
`find_old_files` (purge.py:86-92): entries are processed in order; a raising
`stat` escapes to the `except` handler of purge.py:93-94, which ends the loop
— the entries already collected are kept, because `return old_files` sits
outside the `try`. -/
def scanLoop (now maxAge : ℤ) : List (Path × EntryInfo) → List Path
  | [] => []
  | e :: rest =>
      if e.2.raisesScanStat then []
      else if isCandidate now maxAge e then e.1 :: scanLoop now maxAge rest
      else scanLoop now maxAge rest

/-- `find_old_files` (purge.py:81-96): walk the whole tree, collect paths of
file-like entries strictly older than the threshold; any exception ends the
collection but the partial list is still returned. -/
def find_old_files (now maxAge : ℤ) (fs : FSTree) : List Path :=
  scanLoop now maxAge (rglobEntries [] fs)

/-- `delete_file` (purge.py:98-110): in dry-run mode, log and return success
without touching the filesystem; otherwise `unlink` the path, returning
success, or `False` when `unlink` raises (missing path, directory,
permission error via `unlinkFails`). -/
def delete_file (dry_run : Bool) (fs : FSTree) (p : Path) : Bool × FSTree :=
  if dry_run then (true, fs)
  else
    match lookup p fs with
    | some (.file a) =>
        if a.unlinkFails then (false, fs) else (true, removePath p fs)
    | some (.linkToFile a) =>
        if a.unlinkFails then (false, fs) else (true, removePath p fs)
    | some .special => (true, removePath p fs)
    | some (.dir _ _) => (false, fs)
    | none => (false, fs)

/-- A human-readable size: either the `"?"` placeholder produced when `stat`
fails, or the exact value `num / 1024 ^ k` that `format_file_size` would
render with one decimal and the chosen unit (the decimal rendering itself is
abstracted; `den` is the power `1024 ^ k` divided by). -/
inductive SizeVal where
  | unknown
  | formatted (num : ℕ) (den : ℕ) (unit : String)
deriving DecidableEq, Repr

/-- The unit loop of `format_file_size` (purge.py:160-164): divide by 1024
until the value drops below 1024 or units run out.  The float comparison
`size < 1024.0` on `size / den` is carried out as `size < 1024 * den`. -/
def formatSizeLoop (size : ℕ) (den : ℕ) : List String → SizeVal
  | [] => .formatted size den "TB"
  | u :: rest =>
      if size < 1024 * den then .formatted size den u
      else formatSizeLoop size (den * 1024) rest

/-- `format_file_size` (purge.py:156-166): `stat` the path and format
`st_size`; any failure (the `statFailsMeta` flag, or the path resolving to
nothing stat-able as a file) is caught by the bare `except` and yields
`"?"`.  Directories are never passed to it by `run_purge`. -/
def format_file_size (fs : FSTree) (p : Path) : SizeVal :=
  match lookup p fs with
  | some (.file a) =>
      if a.statFailsMeta then .unknown
      else formatSizeLoop a.size 1 ["B", "KB", "MB", "GB"]
  | some (.linkToFile a) =>
      if a.statFailsMeta then .unknown
      else formatSizeLoop a.size 1 ["B", "KB", "MB", "GB"]
  | _ => .unknown

/-- `format_file_path` (purge.py:149-154): the path relative to the target
root.  Paths are modelled root-relative already, so this is the identity;
the `ValueError` fallback is unreachable for paths produced by `rglob`. -/
def format_file_path (p : Path) : Path := p

/-- The per-file record `file_info` built by `run_purge` (purge.py:183-199)
before the deletion attempt. -/
structure FileInfo where
  path : Path
  relative_path : Path
  size : SizeVal
  age_days : ℚ
deriving DecidableEq

/-- The `try` block of purge.py:185-199: build the info record; if the
metadata-time `stat` raises (flag `statFailsMeta`, or the path no longer
stat-able), the `except` branch substitutes the `'?'` size and age `0`. -/
def capture_file_info (now : ℤ) (fs : FSTree) (p : Path) : FileInfo :=
  match lookup p fs with
  | some (.file a) =>
      if a.statFailsMeta then
        ⟨p, format_file_path p, .unknown, 0⟩
      else
        ⟨p, format_file_path p, format_file_size fs p, get_file_age_days now a.mtime⟩
  | some (.linkToFile a) =>
      if a.statFailsMeta then
        ⟨p, format_file_path p, .unknown, 0⟩
      else
        ⟨p, format_file_path p, format_file_size fs p, get_file_age_days now a.mtime⟩
  | _ => ⟨p, format_file_path p, .unknown, 0⟩

/-- Outcome of the per-candidate loop of `run_purge` (purge.py:183-206). -/
structure DeletePhase where
  deleted : List Path
  infos : List FileInfo
  failed : List Path
  fs : FSTree

/-- The `for file_path in old_files` loop of `run_purge` (purge.py:183-206):
capture metadata first, then attempt deletion, appending the path to the
deleted or the failed list according to the outcome. -/
def purgeLoop (now : ℤ) (dry_run : Bool) : List Path → FSTree → DeletePhase
  | [], fs => ⟨[], [], [], fs⟩
  | p :: rest, fs =>
      let inf := capture_file_info now fs p
      let r := delete_file dry_run fs p
      let d := purgeLoop now dry_run rest r.2
      if r.1 then ⟨p :: d.deleted, inf :: d.infos, d.failed, d.fs⟩
      else ⟨d.deleted, d.infos, p :: d.failed, d.fs⟩

/-- Stable insertion (by descending path depth) used to model Python's
stable `sorted(..., key=lambda x: len(x.parts), reverse=True)`: a new
element goes after every element of depth greater than or equal to its
own. -/
def insertByDepth (p : Path) : List Path → List Path
  | [] => [p]
  | q :: rest =>
      if q.length < p.length then p :: q :: rest
      else q :: insertByDepth p rest

/-- Stable sort by descending depth (deepest first), equal depths keeping
their original `rglob` order, as Python's stable `sorted` does. -/
def sortByDepthDesc (l : List Path) : List Path :=
  l.foldl (fun acc p => insertByDepth p acc) []

/-- The directory list of `remove_empty_directories` (purge.py:117-122):
all directories below the root, deepest first.  `len(x.parts)` of an
absolute path differs from the relative depth by the constant depth of the
root, so sorting by relative depth is the same order. -/
def dirPaths (fs : FSTree) : List Path :=
  sortByDepthDesc ((rglobEntries [] fs).filterMap fun e =>
    match e.2 with
    | .dir _ => some e.1
    | _ => none)

/-- The `for directory in all_dirs` loop of `remove_empty_directories`
(purge.py:124-142): skip the target root; check emptiness with `iterdir`; if
empty, record it (dry run) or `rmdir` and record it; a raising check/removal
(the `rmdirFails` flag, or a path that no longer resolves to a directory) is
caught by the inner `except` and the directory is skipped. -/
def rmdirLoop (dry_run : Bool) : List Path → FSTree → List Path × FSTree
  | [], fs => ([], fs)
  | p :: rest, fs =>
      if p = [] then rmdirLoop dry_run rest fs
      else
        match lookup p fs with
        | some (.dir bFail cs) =>
            if cs.isNil then
              if dry_run then
                let r := rmdirLoop dry_run rest fs
                (p :: r.1, r.2)
              else if bFail then rmdirLoop dry_run rest fs
              else
                let r := rmdirLoop dry_run rest (removePath p fs)
                (p :: r.1, r.2)
            else rmdirLoop dry_run rest fs
        | _ => rmdirLoop dry_run rest fs

/-- `remove_empty_directories` (purge.py:112-147): list all directories
deepest-first, then remove (or, in dry-run mode, merely record) those that
are empty when checked. -/
def remove_empty_directories (dry_run : Bool) (fs : FSTree) : List Path × FSTree :=
  rmdirLoop dry_run (dirPaths fs) fs

/-- The summary dictionary built by `run_purge` (purge.py:212-218). -/
structure CycleResult where
  deleted_files : List Path
  deleted_files_info : List FileInfo
  failed_files : List Path
  removed_directories : List Path
  timestamp : ℤ
deriving DecidableEq

/-- Structural content of the detailed Discord report that
`_send_purge_notification` (purge.py:236-302) hands to
`send_notification`: title, dry-run notice, the three counts, the itemised
lists truncated to 15 / 10 / 5 entries, and the embed colour. -/
structure PurgeReport where
  title : String
  dry_run_notice : Bool
  deleted_count : ℕ
  removed_dir_count : ℕ
  failed_count : ℕ
  deleted_shown : List FileInfo
  removed_shown : List Path
  failed_shown : List Path
  color : ℕ
deriving DecidableEq

/-- The notification value a cycle hands to the notifier: either the
detailed report, or the "nothing to do" message of
`_send_no_action_notification` (purge.py:304-319), which names the
configured maximum age and the next scheduled check time and uses the gray
colour. -/
inductive Notification where
  | report (r : PurgeReport)
  | noAction (title : String) (max_age_days : ℤ) (next_check : ℤ) (color : ℕ)
deriving DecidableEq

/-- The configuration of a `FilePurger` relevant to one cycle. -/
structure Config where
  max_age_days : ℤ
  check_interval_seconds : ℤ
  dry_run : Bool

/-- `_send_purge_notification` (purge.py:236-302): counts from the result
lists, lists truncated to 15 deleted files, 10 directories and 5 failed
paths, green when nothing failed and orange otherwise, and a dry-run marker
in title and body. -/
def send_purge_notification (dry_run : Bool) (r : CycleResult) : Notification :=
  .report
    { title := if dry_run then "File Purge Report (DRY RUN)" else "File Purge Report"
      dry_run_notice := dry_run
      deleted_count := r.deleted_files_info.length
      removed_dir_count := r.removed_directories.length
      failed_count := r.failed_files.length
      deleted_shown := r.deleted_files_info.take 15
      removed_shown := r.removed_directories.take 10
      failed_shown := r.failed_files.take 5
      color := if r.failed_files.length = 0 then 0x00ff00 else 0xffa500 }

/-- `_send_no_action_notification` (purge.py:304-319): gray notification
naming the threshold and the next check time
`datetime.now() + timedelta(seconds=check_interval)`. -/
def send_no_action_notification (cfg : Config) (now : ℤ) : Notification :=
  .noAction "File Purge - Keine Aktion erforderlich" cfg.max_age_days
    (now + cfg.check_interval_seconds) 0x808080

/-- Everything one call of `run_purge` produces: the results dictionary,
the notification dispatched at the end, and the filesystem as the cycle
leaves it. -/
structure PurgeOutcome where
  results : CycleResult
  notification : Notification
  fs : FSTree

/-- `run_purge` (purge.py:168-234): find old files; for each, capture
metadata and attempt deletion; remove empty directories; build the result
summary; dispatch the detailed report when any file was deleted or any
directory removed, and the no-action notification otherwise. -/
def run_purge (cfg : Config) (now : ℤ) (fs : FSTree) : PurgeOutcome :=
  let old_files := find_old_files now cfg.max_age_days fs
  let d := purgeLoop now cfg.dry_run old_files fs
  let rd := remove_empty_directories cfg.dry_run d.fs
  let results : CycleResult :=
    ⟨d.deleted, d.infos, d.failed, rd.1, now⟩
  let notif :=
    if 0 < d.deleted.length || 0 < rd.1.length then
      send_purge_notification cfg.dry_run results
    else send_no_action_notification cfg now
  ⟨results, notif, rd.2⟩

/-! ### Auxiliary definitions used by the verification layer -/

/-- Whether a real-mode `delete_file` at this path would report failure on
the current filesystem. -/
def unlinkWouldFail (fs : FSTree) (p : Path) : Bool :=
  !(delete_file false fs p).1

/-- Attributes of a file none of whose OS calls fail. -/
def cleanAttrs (mtime : ℤ) (size : ℕ) : FileAttrs :=
  ⟨mtime, size, false, false, false⟩

/-- Concrete tree for the scan-error analysis: a clean old file `a` followed
by a file `b` whose scan-time `stat` raises. -/
def fsScanErr : FSTree :=
  .dir false (.cons "a" (.file (cleanAttrs 0 1))
    (.cons "b" (.file ⟨0, 1, true, false, false⟩) .nil))

/-- Concrete tree containing only a symlink that resolves to an old regular
file. -/
def fsLink : FSTree :=
  .dir false (.cons "lnk" (.linkToFile (cleanAttrs 0 1)) .nil)

/-- Concrete tree in which a permission-denied entry `x` precedes a clean
old file `y`. -/
def fsAbort : FSTree :=
  .dir false (.cons "x" (.file ⟨0, 1, true, false, false⟩)
    (.cons "y" (.file (cleanAttrs 0 1)) .nil))

/-- Concrete tree containing a single old file whose `unlink` fails. -/
def fsUnlinkFail : FSTree :=
  .dir false (.cons "f" (.file ⟨0, 1, false, false, true⟩) .nil)

/-- The concrete scenario of the spec: `old.txt` forty days old and
`new.txt` two days old at time `3456000`. -/
def fsScenario : FSTree :=
  .dir false (.cons "old.txt" (.file (cleanAttrs 0 5))
    (.cons "new.txt" (.file (cleanAttrs (3456000 - 2 * 86400) 5)) .nil))

/-- Concrete tree with three old files: one deletable, one whose
metadata-time `stat` fails, one whose `unlink` fails. -/
def fsMixed : FSTree :=
  .dir false (.cons "ok.txt" (.file (cleanAttrs 0 3))
    (.cons "meta.txt" (.file ⟨0, 7, false, true, false⟩)
      (.cons "bad.txt" (.file ⟨0, 9, false, false, true⟩) .nil)))

/-- The nested chain `root/a/b/c/old.txt` of the cascading-removal scenario,
parameterised by the stale file's modification time and size. -/
def fsChain (mtime : ℤ) (sz : ℕ) : FSTree :=
  .dir false (.cons "a" (.dir false (.cons "b" (.dir false (.cons "c"
    (.dir false (.cons "old.txt" (.file (cleanAttrs mtime sz)) .nil)) .nil)) .nil)) .nil)

/-- A node with no entries below it: anything but a non-empty directory.
Removing the object at such a path removes exactly one `rglob` entry. -/
def isLeafNode : FSTree → Bool
  | .dir _ cs => cs.isNil
  | _ => true

/-- Whether the metadata-time `stat` of `run_purge` (purge.py:188-190) fails
at this path: the flag on a file-like node, or the path not resolving to
anything stat-able as a file. -/
def metaStatFails (fs : FSTree) (p : Path) : Bool :=
  match lookup p fs with
  | some (.file a) => a.statFailsMeta
  | some (.linkToFile a) => a.statFailsMeta
  | _ => true

/-- Membership of a tree among the children of a listing. -/
inductive FSList.MemT : FSTree → FSList → Prop
  | head (n : String) (t : FSTree) (rest : FSList) : FSList.MemT t (.cons n t rest)
  | tail (n : String) (u t : FSTree) (rest : FSList) :
      FSList.MemT t rest → FSList.MemT t (.cons n u rest)

/-- Membership of a named child in a listing. -/
inductive FSList.MemNT : String → FSTree → FSList → Prop
  | head (n : String) (t : FSTree) (rest : FSList) : FSList.MemNT n t (.cons n t rest)
  | tail (m : String) (u : FSTree) (n : String) (t : FSTree) (rest : FSList) :
      FSList.MemNT n t rest → FSList.MemNT n t (.cons m u rest)

/-- List-structure induction principle for child listings (the `induction`
tactic does not handle the mutual inductive directly). -/
def FSList.indList {P : FSList → Prop} (h0 : P .nil)
    (h1 : ∀ (n : String) (t : FSTree) (rest : FSList), P rest → P (.cons n t rest)) :
    ∀ cs, P cs
  | .nil => h0
  | .cons n t rest => h1 n t rest (FSList.indList h0 h1 rest)

mutual
/-- Induction principle for trees: to prove a property of every tree it
suffices to prove it for leaves and for directories assuming it for every
child. -/
def FSTree.indOn {P : FSTree → Prop}
    (hf : ∀ a, P (.file a)) (hl : ∀ a, P (.linkToFile a)) (hs : P .special)
    (hd : ∀ b cs, (∀ t, FSList.MemT t cs → P t) → P (.dir b cs)) :
    ∀ t : FSTree, P t
  | .file a => hf a
  | .linkToFile a => hl a
  | .special => hs
  | .dir b cs => hd b cs (FSList.indOnAux hf hl hs hd cs)

/-- Companion of `FSTree.indOn` establishing the property for every member
of a listing. -/
def FSList.indOnAux {P : FSTree → Prop}
    (hf : ∀ a, P (.file a)) (hl : ∀ a, P (.linkToFile a)) (hs : P .special)
    (hd : ∀ b cs, (∀ t, FSList.MemT t cs → P t) → P (.dir b cs)) :
    ∀ cs : FSList, ∀ t, FSList.MemT t cs → P t
  | .nil => fun t hm => by cases hm
  | .cons _ u rest => fun t hm => by
      cases hm with
      | head => exact FSTree.indOn hf hl hs hd u
      | tail _ _ _ _ h => exact FSList.indOnAux hf hl hs hd rest t h
end

/-! ### General lemmas about the embedded operations -/

theorem FSList.childNamed_removeName_self (n : String) (cs : FSList) :
    (cs.removeName n).childNamed n = none := by
  induction cs using FSList.indList with
  | h0 => rfl
  | h1 m t rest ih =>
      by_cases h : m = n <;> simp [FSList.removeName, h, FSList.childNamed, ih]

theorem FSList.childNamed_removeName_ne {m n : String} (h : m ≠ n) (cs : FSList) :
    (cs.removeName n).childNamed m = cs.childNamed m := by
  induction cs using FSList.indList with
  | h0 => rfl
  | h1 k t rest ih =>
      by_cases hk : k = n
      · subst hk
        have hkm : ¬ (k = m) := fun hkm => h hkm.symm
        simp [FSList.removeName, FSList.childNamed, hkm, ih]
      · by_cases hkm : k = m <;>
          simp [FSList.removeName, hk, FSList.childNamed, hkm, h, ih]

theorem FSList.childNamed_replaceName (n : String) (t' : FSTree) (cs : FSList) :
    (cs.replaceName n t').childNamed n = (cs.childNamed n).map fun _ => t' := by
  induction cs using FSList.indList with
  | h0 => rfl
  | h1 m t rest ih =>
      by_cases h : m = n <;> simp [FSList.replaceName, h, FSList.childNamed, ih]

theorem FSList.childNamed_replaceName_ne {m n : String} (h : m ≠ n) (t' : FSTree)
    (cs : FSList) :
    (cs.replaceName n t').childNamed m = cs.childNamed m := by
  induction cs using FSList.indList with
  | h0 => rfl
  | h1 k t rest ih =>
      by_cases hk : k = n
      · subst hk
        have hkm : ¬ (k = m) := fun hkm => h hkm.symm
        simp [FSList.replaceName, FSList.childNamed, hkm, ih]
      · by_cases hkm : k = m <;>
          simp [FSList.replaceName, hk, FSList.childNamed, hkm, h, ih]

theorem FSList.childNames_replaceName (n : String) (t' : FSTree) (cs : FSList) :
    (cs.replaceName n t').childNames = cs.childNames := by
  induction cs using FSList.indList with
  | h0 => rfl
  | h1 m t rest ih =>
      by_cases h : m = n <;> simp [FSList.replaceName, h, FSList.childNames, ih]

theorem FSList.childNames_removeName (n : String) (cs : FSList) :
    (cs.removeName n).childNames = cs.childNames.filter fun m => !(m == n) := by
  induction cs using FSList.indList with
  | h0 => rfl
  | h1 m t rest ih =>
      by_cases h : m = n <;> simp [FSList.removeName, h, FSList.childNames, ih]

theorem namesNodup_iff (l : List String) : namesNodup l = true ↔ l.Nodup := by
  induction l with
  | nil => simp [namesNodup]
  | cons n rest ih => simp [namesNodup, ih, List.elem_iff]

theorem FSList.memT_of_childNamed {n : String} {cs : FSList} {c : FSTree}
    (h : cs.childNamed n = some c) : FSList.MemT c cs := by
  induction cs using FSList.indList with
  | h0 => simp [FSList.childNamed] at h
  | h1 m t rest ih =>
      by_cases hm : m = n
      · rw [FSList.childNamed, if_pos hm] at h
        cases h
        exact FSList.MemT.head m c rest
      · rw [FSList.childNamed, if_neg hm] at h
        exact FSList.MemT.tail m t c rest (ih h)

theorem FSList.memT_removeName {n : String} {cs : FSList} {u : FSTree}
    (h : FSList.MemT u (cs.removeName n)) : FSList.MemT u cs := by
  induction cs using FSList.indList with
  | h0 => rw [FSList.removeName] at h; cases h
  | h1 m t rest ih =>
      by_cases hm : m = n
      · rw [FSList.removeName, if_pos hm] at h
        exact FSList.MemT.tail m t u rest (ih h)
      · rw [FSList.removeName, if_neg hm] at h
        cases h with
        | head => exact FSList.MemT.head m u rest
        | tail _ _ _ _ hh => exact FSList.MemT.tail m t u rest (ih hh)

theorem FSList.memT_replaceName {n : String} {t' : FSTree} {cs : FSList} {u : FSTree}
    (h : FSList.MemT u (cs.replaceName n t')) : u = t' ∨ FSList.MemT u cs := by
  induction cs using FSList.indList with
  | h0 => rw [FSList.replaceName] at h; cases h
  | h1 m t rest ih =>
      by_cases hm : m = n
      · rw [FSList.replaceName, if_pos hm] at h
        cases h with
        | head => exact Or.inl rfl
        | tail _ _ _ _ hh =>
            rcases ih hh with h1 | h1
            · exact Or.inl h1
            · exact Or.inr (FSList.MemT.tail m t u rest h1)
      · rw [FSList.replaceName, if_neg hm] at h
        cases h with
        | head => exact Or.inr (FSList.MemT.head m u rest)
        | tail _ _ _ _ hh =>
            rcases ih hh with h1 | h1
            · exact Or.inl h1
            · exact Or.inr (FSList.MemT.tail m t u rest h1)

theorem wf_dir {b : Bool} {cs : FSList} :
    wf (.dir b cs) = true ↔ namesNodup cs.childNames = true ∧ wfL cs = true := by
  rw [wf, Bool.and_eq_true]

theorem wfL_memT {cs : FSList} {t : FSTree} (hw : wfL cs = true)
    (hm : FSList.MemT t cs) : wf t = true := by
  induction hm with
  | head n t rest =>
      rw [wfL, Bool.and_eq_true] at hw
      exact hw.1
  | tail n u t rest hh ih =>
      rw [wfL, Bool.and_eq_true] at hw
      exact ih hw.2

theorem wfL_iff {cs : FSList} :
    wfL cs = true ↔ ∀ t, FSList.MemT t cs → wf t = true := by
  constructor
  · exact fun hw t hm => wfL_memT hw hm
  · intro h
    induction cs using FSList.indList with
    | h0 => rfl
    | h1 n t rest ih =>
        rw [wfL, Bool.and_eq_true]
        exact ⟨h t (FSList.MemT.head n t rest),
          ih fun u hm => h u (FSList.MemT.tail n t u rest hm)⟩

theorem FSList.isNil_iff {cs : FSList} : cs.isNil = true ↔ cs = .nil := by
  cases cs <;> simp [FSList.isNil]

theorem lookup_leaf_nonnil {v : FSTree} (hleaf : isLeafNode v = true)
    {q : Path} (hq : q ≠ []) : lookup q v = none := by
  cases q with
  | nil => exact absurd rfl hq
  | cons m qrest =>
      cases v with
      | dir b cs =>
          rw [isLeafNode, FSList.isNil_iff] at hleaf
          subst hleaf
          simp [lookup, FSList.childNamed]
      | file a => rfl
      | linkToFile a => rfl
      | special => rfl

theorem lookup_append (q ext : Path) (t : FSTree) :
    lookup (q ++ ext) t = (lookup q t).bind fun v => lookup ext v := by
  induction q generalizing t with
  | nil => simp [lookup]
  | cons n rest ih =>
      cases t with
      | dir b cs =>
          cases hc : FSList.childNamed n cs with
          | some c => simp [lookup, hc, ih]
          | none => simp [lookup, hc]
      | file a => simp [lookup]
      | linkToFile a => simp [lookup]
      | special => simp [lookup]

theorem prefix_eq_of_leaf {t v u : FSTree} {q p : Path}
    (hq : lookup q t = some v) (hleaf : isLeafNode v = true)
    (hp : lookup p t = some u) (hpre : q <+: p) : q = p := by
  obtain ⟨ext, rfl⟩ := hpre
  cases ext with
  | nil => simp
  | cons e erest =>
      rw [lookup_append, hq] at hp
      rw [Option.some_bind, lookup_leaf_nonnil hleaf (by simp)] at hp
      cases hp

theorem info_removePath (r : Path) (t : FSTree) :
    (removePath r t).info = t.info := by
  cases r with
  | nil => rfl
  | cons n rest =>
      cases t with
      | dir b cs =>
          cases rest with
          | nil => rfl
          | cons r2 rrest =>
              cases hc : FSList.childNamed n cs <;> simp [removePath, hc, FSTree.info]
      | file a => cases rest <;> rfl
      | linkToFile a => cases rest <;> rfl
      | special => cases rest <;> rfl

theorem lookup_removePath_of_no_pref :
    ∀ (r : Path) (t v : FSTree) (q : Path), lookup r t = some v →
      isLeafNode v = true → ¬ (q <+: r) →
      lookup q (removePath r t) = lookup q t := by
  intro r
  induction r with
  | nil => intro t v q _ _ _; rfl
  | cons n rest ih =>
      intro t v q hl hleaf hq
      cases t with
      | file a => cases rest <;> rfl
      | linkToFile a => cases rest <;> rfl
      | special => cases rest <;> rfl
      | dir b cs =>
          cases rest with
          | nil =>
              have hcn : FSList.childNamed n cs = some v := by
                cases hc : FSList.childNamed n cs with
                | some c =>
                    simp [lookup, hc] at hl
                    rw [hl]
                | none => simp [lookup, hc] at hl
              cases q with
              | nil => exact absurd List.nil_prefix hq
              | cons m qrest =>
                  by_cases hmn : m = n
                  · subst hmn
                    cases qrest with
                    | nil => exact absurd (List.prefix_refl _) hq
                    | cons m2 q2 =>
                        have hrhs : lookup (m :: m2 :: q2) (FSTree.dir b cs) = none := by
                          simp [lookup, hcn]
                          exact lookup_leaf_nonnil hleaf (by simp)
                        rw [hrhs]
                        simp [removePath, lookup, FSList.childNamed_removeName_self]
                  · simp [removePath, lookup, FSList.childNamed_removeName_ne hmn]
          | cons r2 rrest =>
              cases hc : FSList.childNamed n cs with
              | none => simp [lookup, hc] at hl
              | some c =>
                  have hlc : lookup (r2 :: rrest) c = some v := by
                    simpa [lookup, hc] using hl
                  cases q with
                  | nil => exact absurd List.nil_prefix hq
                  | cons m qrest =>
                      by_cases hmn : m = n
                      · subst hmn
                        have hq2 : ¬ (qrest <+: r2 :: rrest) := by
                          intro hp
                          exact hq (List.cons_prefix_cons.mpr ⟨rfl, hp⟩)
                        have hpres := ih c v qrest hlc hleaf hq2
                        simp [removePath, hc, lookup, FSList.childNamed_replaceName, hpres]
                      · simp [removePath, hc, lookup, FSList.childNamed_replaceName_ne hmn]

theorem lookup_removePath_self :
    ∀ (r : Path) (t v : FSTree), r ≠ [] → lookup r t = some v →
      lookup r (removePath r t) = none := by
  intro r
  induction r with
  | nil => intro t v h _; exact absurd rfl h
  | cons n rest ih =>
      intro t v _ hl
      cases t with
      | file a => simp [lookup] at hl
      | linkToFile a => simp [lookup] at hl
      | special => simp [lookup] at hl
      | dir b cs =>
          cases rest with
          | nil => simp [removePath, lookup, FSList.childNamed_removeName_self]
          | cons r2 rrest =>
              cases hc : FSList.childNamed n cs with
              | none => simp [lookup, hc] at hl
              | some c =>
                  have hlc : lookup (r2 :: rrest) c = some v := by
                    simpa [lookup, hc] using hl
                  simp [removePath, hc, lookup, FSList.childNamed_replaceName]
                  exact ih c v (by simp) hlc

theorem wf_removePath : ∀ (r : Path) (t : FSTree), wf t = true →
    wf (removePath r t) = true := by
  intro r
  induction r with
  | nil => intro t h; exact h
  | cons n rest ih =>
      intro t h
      cases t with
      | file a => cases rest <;> exact h
      | linkToFile a => cases rest <;> exact h
      | special => cases rest <;> exact h
      | dir b cs =>
          rw [wf_dir] at h
          obtain ⟨hnod, hwl⟩ := h
          cases rest with
          | nil =>
              refine wf_dir.mpr ⟨?_, ?_⟩
              · rw [FSList.childNames_removeName]
                rw [namesNodup_iff] at hnod ⊢
                exact hnod.filter _
              · rw [wfL_iff]
                intro t hm
                exact wfL_memT hwl (FSList.memT_removeName hm)
          | cons r2 rrest =>
              cases hc : FSList.childNamed n cs with
              | none =>
                  simp only [removePath, hc]
                  exact wf_dir.mpr ⟨hnod, hwl⟩
              | some c =>
                  simp only [removePath, hc]
                  refine wf_dir.mpr ⟨?_, ?_⟩
                  · rw [FSList.childNames_replaceName]
                    exact hnod
                  · rw [wfL_iff]
                    intro u hm
                    rcases FSList.memT_replaceName hm with h1 | h1
                    · rw [h1]
                      exact ih c (wfL_memT hwl (FSList.memT_of_childNamed hc))
                    · exact wfL_memT hwl h1

theorem rglobEntries_leaf {v : FSTree} (hleaf : isLeafNode v = true) (p : Path) :
    rglobEntries p v = [] := by
  cases v with
  | dir b cs =>
      rw [isLeafNode, FSList.isNil_iff] at hleaf
      subst hleaf
      rfl
  | file a => rfl
  | linkToFile a => rfl
  | special => rfl

theorem FSList.memT_of_memNT {n : String} {u : FSTree} {cs : FSList}
    (h : FSList.MemNT n u cs) : FSList.MemT u cs := by
  induction h with
  | head n t rest => exact FSList.MemT.head n t rest
  | tail m v n t rest hh ih => exact FSList.MemT.tail m v t rest ih

theorem FSList.memNT_of_childNamed {n : String} {cs : FSList} {c : FSTree}
    (h : cs.childNamed n = some c) : FSList.MemNT n c cs := by
  induction cs using FSList.indList with
  | h0 => simp [FSList.childNamed] at h
  | h1 m t rest ih =>
      by_cases hm : m = n
      · subst hm
        rw [FSList.childNamed, if_pos rfl] at h
        cases h
        exact FSList.MemNT.head m c rest
      · rw [FSList.childNamed, if_neg hm] at h
        exact FSList.MemNT.tail m t n c rest (ih h)

theorem FSList.memNT_name_mem {n : String} {u : FSTree} {cs : FSList}
    (h : FSList.MemNT n u cs) : n ∈ cs.childNames := by
  induction h with
  | head n t rest => simp [FSList.childNames]
  | tail m v n t rest hh ih => simp [FSList.childNames, ih]

theorem FSList.childNamed_of_memNT {n : String} {u : FSTree} {cs : FSList}
    (hnod : namesNodup cs.childNames = true) (h : FSList.MemNT n u cs) :
    cs.childNamed n = some u := by
  induction h with
  | head n t rest => rw [FSList.childNamed, if_pos rfl]
  | tail m v n t rest hh ih =>
      rw [FSList.childNames, namesNodup, Bool.and_eq_true] at hnod
      have hm : ¬ (m = n) := by
        intro hEq
        subst hEq
        have hmem : m ∈ FSList.childNames rest := FSList.memNT_name_mem hh
        have := hnod.1
        rw [Bool.not_eq_eq_eq_not, Bool.not_true] at this
        rw [← List.elem_iff] at hmem
        rw [List.contains] at this
        rw [this] at hmem
        cases hmem
      rw [FSList.childNamed, if_neg hm]
      exact ih hnod.2

theorem mem_childEntries {p : Path} {e : Path × EntryInfo} {cs : FSList} :
    e ∈ childEntries p cs ↔ ∃ n u, FSList.MemNT n u cs ∧ e = (p ++ [n], FSTree.info u) := by
  induction cs using FSList.indList with
  | h0 =>
      constructor
      · intro h
        simp [childEntries] at h
      · rintro ⟨n, u, h, _⟩
        cases h
  | h1 m t rest ih =>
      constructor
      · intro h
        rw [childEntries] at h
        rcases List.mem_cons.mp h with h | h
        · exact ⟨m, t, FSList.MemNT.head m t rest, h⟩
        · obtain ⟨n, u, hm, he⟩ := ih.mp h
          exact ⟨n, u, FSList.MemNT.tail m t n u rest hm, he⟩
      · rintro ⟨n, u, hm, he⟩
        cases hm with
        | head =>
            rw [childEntries]
            exact List.mem_cons.mpr (Or.inl he)
        | tail _ _ _ _ _ hh =>
            rw [childEntries]
            exact List.mem_cons.mpr (Or.inr (ih.mpr ⟨n, u, hh, he⟩))

theorem mem_rglobSub {p : Path} {e : Path × EntryInfo} {cs : FSList} :
    e ∈ rglobSub p cs ↔ ∃ n u, FSList.MemNT n u cs ∧ e ∈ rglobEntries (p ++ [n]) u := by
  induction cs using FSList.indList with
  | h0 =>
      constructor
      · intro h
        simp [rglobSub] at h
      · rintro ⟨n, u, h, _⟩
        cases h
  | h1 m t rest ih =>
      constructor
      · intro h
        rw [rglobSub] at h
        rcases List.mem_append.mp h with h | h
        · exact ⟨m, t, FSList.MemNT.head m t rest, h⟩
        · obtain ⟨n, u, hm, he⟩ := ih.mp h
          exact ⟨n, u, FSList.MemNT.tail m t n u rest hm, he⟩
      · rintro ⟨n, u, hm, he⟩
        cases hm with
        | head =>
            rw [rglobSub]
            exact List.mem_append.mpr (Or.inl he)
        | tail _ _ _ _ _ hh =>
            rw [rglobSub]
            exact List.mem_append.mpr (Or.inr (ih.mpr ⟨n, u, hh, he⟩))

theorem rglob_extends : ∀ (t : FSTree) (p : Path) (e : Path × EntryInfo),
    e ∈ rglobEntries p t → ∃ n s, e.1 = p ++ n :: s := by
  intro t
  induction t using FSTree.indOn with
  | hf a =>
      intro p e he
      simp [rglobEntries] at he
  | hl a =>
      intro p e he
      simp [rglobEntries] at he
  | hs =>
      intro p e he
      simp [rglobEntries] at he
  | hd b cs ihm =>
      intro p e he
      rw [rglobEntries] at he
      rcases List.mem_append.mp he with h | h
      · obtain ⟨n, u, _, he'⟩ := mem_childEntries.mp h
        exact ⟨n, [], by rw [he']⟩
      · obtain ⟨n, u, hm, he'⟩ := mem_rglobSub.mp h
        obtain ⟨n2, s2, hp⟩ := ihm u (FSList.memT_of_memNT hm) (p ++ [n]) e he'
        refine ⟨n, n2 :: s2, ?_⟩
        rw [hp, List.append_assoc]
        rfl

theorem mem_rglobSub_extends {p : Path} {e : Path × EntryInfo} {cs : FSList}
    (h : e ∈ rglobSub p cs) :
    ∃ n u s, FSList.MemNT n u cs ∧ s ≠ [] ∧ e.1 = p ++ n :: s ∧
      e ∈ rglobEntries (p ++ [n]) u := by
  obtain ⟨n, u, hm, he⟩ := mem_rglobSub.mp h
  obtain ⟨n2, s2, hp⟩ := rglob_extends u (p ++ [n]) e he
  refine ⟨n, u, n2 :: s2, hm, by simp, ?_, he⟩
  rw [hp, List.append_assoc]
  rfl

theorem lookup_mem_rglob : ∀ (q : Path) (t : FSTree) (p : Path) (u : FSTree),
    lookup q t = some u → q ≠ [] → (p ++ q, FSTree.info u) ∈ rglobEntries p t := by
  intro q
  induction q with
  | nil => intro t p u _ h; exact absurd rfl h
  | cons n rest ih =>
      intro t p u hl _
      cases t with
      | file a => simp [lookup] at hl
      | linkToFile a => simp [lookup] at hl
      | special => simp [lookup] at hl
      | dir b cs =>
          cases hc : FSList.childNamed n cs with
          | none => simp [lookup, hc] at hl
          | some c =>
              have hlc : lookup rest c = some u := by simpa [lookup, hc] using hl
              cases rest with
              | nil =>
                  rw [lookup] at hlc
                  cases hlc
                  rw [rglobEntries]
                  refine List.mem_append.mpr (Or.inl ?_)
                  exact mem_childEntries.mpr
                    ⟨n, u, FSList.memNT_of_childNamed hc, by simp⟩
              | cons r2 rrest =>
                  have hmem := ih c (p ++ [n]) u hlc (by simp)
                  rw [rglobEntries]
                  refine List.mem_append.mpr (Or.inr ?_)
                  refine mem_rglobSub.mpr ⟨n, c, FSList.memNT_of_childNamed hc, ?_⟩
                  rw [List.append_assoc] at hmem
                  exact hmem

theorem rglob_lookup_of_mem : ∀ (t : FSTree), wf t = true →
    ∀ (p : Path) (e : Path × EntryInfo), e ∈ rglobEntries p t →
      ∃ q u, q ≠ [] ∧ e.1 = p ++ q ∧ lookup q t = some u ∧ FSTree.info u = e.2 := by
  intro t
  induction t using FSTree.indOn with
  | hf a =>
      intro _ p e he
      simp [rglobEntries] at he
  | hl a =>
      intro _ p e he
      simp [rglobEntries] at he
  | hs =>
      intro _ p e he
      simp [rglobEntries] at he
  | hd b cs ihm =>
      intro hw p e he
      obtain ⟨hnod, hwl⟩ := wf_dir.mp hw
      rw [rglobEntries] at he
      rcases List.mem_append.mp he with h | h
      · obtain ⟨n, u, hm, he'⟩ := mem_childEntries.mp h
        refine ⟨[n], u, by simp, by rw [he'], ?_, by rw [he']⟩
        simp [lookup, FSList.childNamed_of_memNT hnod hm]
      · obtain ⟨n, u, hm, he'⟩ := mem_rglobSub.mp h
        have hwu : wf u = true := wfL_memT hwl (FSList.memT_of_memNT hm)
        obtain ⟨q', v, hq'ne, hpath, hlq, hinfo⟩ :=
          ihm u (FSList.memT_of_memNT hm) hwu (p ++ [n]) e he'
        refine ⟨n :: q', v, by simp, ?_, ?_, hinfo⟩
        · rw [hpath, List.append_assoc]
          rfl
        · simp [lookup, FSList.childNamed_of_memNT hnod hm, hlq]

theorem childEntries_map_fst (p : Path) : ∀ cs : FSList,
    (childEntries p cs).map Prod.fst = cs.childNames.map (fun n => p ++ [n]) := by
  intro cs
  induction cs using FSList.indList with
  | h0 => rfl
  | h1 m t rest ih => simp [childEntries, FSList.childNames, ih]

theorem append_singleton_injective (p : Path) :
    Function.Injective fun n : String => p ++ [n] := by
  intro a b hab
  have := List.append_cancel_left hab
  simpa using this

theorem rglobSub_nodup_aux (p : Path) : ∀ cs : FSList,
    namesNodup cs.childNames = true → wfL cs = true →
    (∀ t, FSList.MemT t cs → wf t = true → ∀ p',
      ((rglobEntries p' t).map Prod.fst).Nodup) →
    ((rglobSub p cs).map Prod.fst).Nodup := by
  intro cs
  induction cs using FSList.indList with
  | h0 =>
      intro _ _ _
      simp [rglobSub]
  | h1 n t rest ih =>
      intro hnod hwl hmem
      rw [FSList.childNames] at hnod
      obtain ⟨hn_notmem, hrest_nodup⟩ :=
        List.nodup_cons.mp ((namesNodup_iff _).mp hnod)
      rw [wfL, Bool.and_eq_true] at hwl
      rw [rglobSub, List.map_append]
      refine List.Nodup.append ?_ ?_ ?_
      · exact hmem t (FSList.MemT.head n t rest) hwl.1 (p ++ [n])
      · exact ih ((namesNodup_iff _).mpr hrest_nodup) hwl.2
          (fun u hm hwu p' => hmem u (FSList.MemT.tail n t u rest hm) hwu p')
      · intro x hx hy
        obtain ⟨e, he, hex⟩ := List.mem_map.mp hx
        obtain ⟨e2, he2, he2x⟩ := List.mem_map.mp hy
        obtain ⟨n2, s2, hp2⟩ := rglob_extends t (p ++ [n]) e he
        obtain ⟨n3, u3, s3, hm3, _, hpath3, _⟩ := mem_rglobSub_extends he2
        have hxeq : p ++ n :: (n2 :: s2) = p ++ n3 :: s3 :=
          calc p ++ n :: (n2 :: s2) = (p ++ [n]) ++ (n2 :: s2) := by
                rw [List.append_assoc]
                rfl
            _ = e.1 := hp2.symm
            _ = x := hex
            _ = e2.1 := he2x.symm
            _ = p ++ n3 :: s3 := hpath3
        have hnn3 : n = n3 := by
          have := List.append_cancel_left hxeq
          simp at this
          exact this.1
        have hn3mem : n3 ∈ rest.childNames := FSList.memNT_name_mem hm3
        rw [← hnn3] at hn3mem
        exact hn_notmem hn3mem

theorem rglob_nodup : ∀ (t : FSTree), wf t = true → ∀ (p : Path),
    ((rglobEntries p t).map Prod.fst).Nodup := by
  intro t
  induction t using FSTree.indOn with
  | hf a =>
      intro _ p
      simp [rglobEntries]
  | hl a =>
      intro _ p
      simp [rglobEntries]
  | hs =>
      intro _ p
      simp [rglobEntries]
  | hd b cs ihm =>
      intro hw p
      obtain ⟨hnod, hwl⟩ := wf_dir.mp hw
      rw [rglobEntries, List.map_append]
      refine List.Nodup.append ?_ ?_ ?_
      · rw [childEntries_map_fst]
        exact ((namesNodup_iff _).mp hnod).map (append_singleton_injective p)
      · exact rglobSub_nodup_aux p cs hnod hwl ihm
      · intro x hx hy
        rw [childEntries_map_fst] at hx
        obtain ⟨n, _, hnx⟩ := List.mem_map.mp hx
        obtain ⟨e2, he2, he2x⟩ := List.mem_map.mp hy
        obtain ⟨n3, u3, s3, _, hs3ne, hpath3, _⟩ := mem_rglobSub_extends he2
        have hxeq : p ++ [n] = p ++ n3 :: s3 := by
          rw [hnx, ← he2x, hpath3]
        have := List.append_cancel_left hxeq
        simp at this
        exact hs3ne this.2

theorem FSList.replaceName_not_mem {n : String} {t0 : FSTree} : ∀ {cs : FSList},
    n ∉ cs.childNames → cs.replaceName n t0 = cs := by
  intro cs
  induction cs using FSList.indList with
  | h0 => intro _; rfl
  | h1 m t rest ih =>
      intro h
      rw [FSList.childNames] at h
      have hmn : ¬ (m = n) := fun hh => h (hh ▸ List.mem_cons_self m _)
      rw [FSList.replaceName, if_neg hmn, ih fun hh => h (List.mem_cons_of_mem m hh)]

theorem FSList.removeName_not_mem {n : String} : ∀ {cs : FSList},
    n ∉ cs.childNames → cs.removeName n = cs := by
  intro cs
  induction cs using FSList.indList with
  | h0 => intro _; rfl
  | h1 m t rest ih =>
      intro h
      rw [FSList.childNames] at h
      have hmn : ¬ (m = n) := fun hh => h (hh ▸ List.mem_cons_self m _)
      rw [FSList.removeName, if_neg hmn, ih fun hh => h (List.mem_cons_of_mem m hh)]

theorem childEntries_removeName (p : Path) (n : String) : ∀ cs : FSList,
    childEntries p (cs.removeName n) =
      (childEntries p cs).filter fun e => !(e.1 == p ++ [n]) := by
  intro cs
  induction cs using FSList.indList with
  | h0 => rfl
  | h1 m t rest ih =>
      by_cases hm : m = n
      · subst hm
        rw [FSList.removeName, if_pos rfl, ih, childEntries, List.filter_cons]
        simp
      · rw [FSList.removeName, if_neg hm, childEntries, childEntries, ih,
          List.filter_cons]
        have : ((p ++ [m], FSTree.info t).1 == p ++ [n]) = false := by
          simp only [beq_eq_false_iff_ne]
          intro hh
          exact hm (by simpa using List.append_cancel_left hh)
        rw [this]
        simp

theorem childEntries_replaceName_info {n : String} {c t0 : FSTree}
    (hinfo : FSTree.info t0 = FSTree.info c) (p : Path) : ∀ cs : FSList,
    namesNodup cs.childNames = true → cs.childNamed n = some c →
    childEntries p (cs.replaceName n t0) = childEntries p cs := by
  intro cs
  induction cs using FSList.indList with
  | h0 => intro _ h; simp [FSList.childNamed] at h
  | h1 m t rest ih =>
      intro hnod hcn
      rw [FSList.childNames] at hnod
      obtain ⟨hnotmem, hrest⟩ := List.nodup_cons.mp ((namesNodup_iff _).mp hnod)
      by_cases hm : m = n
      · subst hm
        rw [FSList.childNamed, if_pos rfl] at hcn
        cases hcn
        rw [FSList.replaceName, if_pos rfl, childEntries, childEntries, hinfo,
          FSList.replaceName_not_mem hnotmem]
      · rw [FSList.childNamed, if_neg hm] at hcn
        rw [FSList.replaceName, if_neg hm, childEntries, childEntries,
          ih ((namesNodup_iff _).mpr hrest) hcn]

theorem rglobSub_filter_singleton (p : Path) (n : String) (cs : FSList) :
    (rglobSub p cs).filter (fun e => !(e.1 == p ++ [n])) = rglobSub p cs := by
  rw [List.filter_eq_self]
  intro e he
  obtain ⟨n3, u3, s3, _, hs3ne, hpath3, _⟩ := mem_rglobSub_extends he
  simp only [Bool.not_eq_true', beq_eq_false_iff_ne]
  intro hh
  rw [hpath3] at hh
  have := List.append_cancel_left hh
  simp at this
  exact hs3ne this.2

theorem rglobSub_removeName {n : String} {c : FSTree} (p : Path)
    (hleaf : isLeafNode c = true) : ∀ cs : FSList,
    namesNodup cs.childNames = true → cs.childNamed n = some c →
    rglobSub p (cs.removeName n) = rglobSub p cs := by
  intro cs
  induction cs using FSList.indList with
  | h0 => intro _ h; simp [FSList.childNamed] at h
  | h1 m t rest ih =>
      intro hnod hcn
      rw [FSList.childNames] at hnod
      obtain ⟨hnotmem, hrest⟩ := List.nodup_cons.mp ((namesNodup_iff _).mp hnod)
      by_cases hm : m = n
      · subst hm
        rw [FSList.childNamed, if_pos rfl] at hcn
        cases hcn
        rw [FSList.removeName, if_pos rfl, FSList.removeName_not_mem hnotmem,
          rglobSub, rglobEntries_leaf hleaf, List.nil_append]
      · rw [FSList.childNamed, if_neg hm] at hcn
        rw [FSList.removeName, if_neg hm, rglobSub, rglobSub,
          ih ((namesNodup_iff _).mpr hrest) hcn]

theorem childEntries_filter_deep (p : Path) (n r2 : String) (rrest : Path)
    (cs : FSList) :
    (childEntries p cs).filter (fun e => !(e.1 == p ++ n :: r2 :: rrest)) =
      childEntries p cs := by
  rw [List.filter_eq_self]
  intro e he
  obtain ⟨m, u, _, he'⟩ := mem_childEntries.mp he
  simp only [Bool.not_eq_true', beq_eq_false_iff_ne]
  intro hh
  rw [he'] at hh
  have := List.append_cancel_left hh
  simp at this

theorem rglobSub_replaceName {n : String} {c t0 : FSTree} (p : Path)
    (rdeep : Path) : ∀ cs : FSList,
    namesNodup cs.childNames = true → cs.childNamed n = some c →
    rglobEntries (p ++ [n]) t0 =
      (rglobEntries (p ++ [n]) c).filter (fun e => !(e.1 == p ++ n :: rdeep)) →
    rglobSub p (cs.replaceName n t0) =
      (rglobSub p cs).filter fun e => !(e.1 == p ++ n :: rdeep) := by
  intro cs
  induction cs using FSList.indList with
  | h0 =>
      intro _ h _
      simp [FSList.childNamed] at h
  | h1 m t rest ih =>
      intro hnod hcn hrepl
      rw [FSList.childNames] at hnod
      obtain ⟨hnotmem, hrest⟩ := List.nodup_cons.mp ((namesNodup_iff _).mp hnod)
      by_cases hm : m = n
      · subst hm
        rw [FSList.childNamed, if_pos rfl] at hcn
        cases hcn
        rw [FSList.replaceName, if_pos rfl, FSList.replaceName_not_mem hnotmem,
          rglobSub, rglobSub, List.filter_append, hrepl]
        congr 1
        symm
        rw [List.filter_eq_self]
        intro e he
        obtain ⟨n3, u3, s3, hm3, _, hpath3, _⟩ := mem_rglobSub_extends he
        simp only [Bool.not_eq_true', beq_eq_false_iff_ne]
        intro hh
        rw [hpath3] at hh
        have hceq := List.append_cancel_left hh
        have hn3 : n3 = m := by
          simp at hceq
          exact hceq.1
        exact hnotmem (hn3 ▸ FSList.memNT_name_mem hm3)
      · rw [FSList.childNamed, if_neg hm] at hcn
        rw [FSList.replaceName, if_neg hm, rglobSub, rglobSub, List.filter_append,
          ih ((namesNodup_iff _).mpr hrest) hcn hrepl]
        congr 1
        symm
        rw [List.filter_eq_self]
        intro e he
        obtain ⟨n2, s2, hp2⟩ := rglob_extends t (p ++ [m]) e he
        simp only [Bool.not_eq_true', beq_eq_false_iff_ne]
        intro hh
        have hcv : p ++ m :: (n2 :: s2) = p ++ n :: rdeep := by
          rw [← hh, hp2, List.append_assoc]
          rfl
        have := List.append_cancel_left hcv
        simp at this
        exact hm this.1

theorem rglob_removePath : ∀ (r : Path) (t v : FSTree) (p : Path),
    wf t = true → lookup r t = some v → isLeafNode v = true → r ≠ [] →
    rglobEntries p (removePath r t) =
      (rglobEntries p t).filter fun e => !(e.1 == p ++ r) := by
  intro r
  induction r with
  | nil => intro t v p _ _ _ h; exact absurd rfl h
  | cons n rest ih =>
      intro t v p hwt hl hleaf _
      cases t with
      | file a => simp [lookup] at hl
      | linkToFile a => simp [lookup] at hl
      | special => simp [lookup] at hl
      | dir b cs =>
          obtain ⟨hnod, hwl⟩ := wf_dir.mp hwt
          cases rest with
          | nil =>
              have hcn : FSList.childNamed n cs = some v := by
                cases hc : FSList.childNamed n cs with
                | some c =>
                    simp [lookup, hc] at hl
                    rw [hl]
                | none => simp [lookup, hc] at hl
              show rglobEntries p (.dir b (FSList.removeName n cs)) = _
              rw [rglobEntries, rglobEntries, List.filter_append,
                childEntries_removeName, rglobSub_removeName p hleaf cs hnod hcn,
                rglobSub_filter_singleton]
          | cons r2 rrest =>
              cases hc : FSList.childNamed n cs with
              | none => simp [lookup, hc] at hl
              | some c =>
                  have hlc : lookup (r2 :: rrest) c = some v := by
                    simpa [lookup, hc] using hl
                  have hwc : wf c = true :=
                    wfL_memT hwl (FSList.memT_of_memNT (FSList.memNT_of_childNamed hc))
                  have hrepl0 := ih c v (p ++ [n]) hwc hlc hleaf (by simp)
                  have hpathconv : (p ++ [n]) ++ (r2 :: rrest) = p ++ n :: r2 :: rrest := by
                    rw [List.append_assoc]
                    rfl
                  rw [hpathconv] at hrepl0
                  have hrp : removePath (n :: r2 :: rrest) (.dir b cs) =
                      .dir b (cs.replaceName n (removePath (r2 :: rrest) c)) := by
                    simp [removePath, hc]
                  rw [hrp, rglobEntries, rglobEntries, List.filter_append,
                    childEntries_replaceName_info (info_removePath _ _) p cs hnod hc,
                    rglobSub_replaceName p (r2 :: rrest) cs hnod hc hrepl0,
                    childEntries_filter_deep]

/-- The integer comparison embedded in the scan is exactly the float
comparison `get_file_age_days(...) > max_age_days` of purge.py:89, read over
exact rationals. -/
theorem is_older_than_iff_age_gt (now mtime maxAge : ℤ) :
    is_older_than now mtime maxAge = true ↔
      get_file_age_days now mtime > (maxAge : ℚ) := by
  unfold is_older_than get_file_age_days
  rw [decide_eq_true_iff, gt_iff_lt, gt_iff_lt,
    lt_div_iff₀ (by norm_num : (0:ℚ) < 86400)]
  constructor
  · intro h
    exact_mod_cast h
  · intro h
    exact_mod_cast h

/-- The scan loop collects the old files among the entries before the first
entry whose `stat` raises, and nothing else: the `except` handler of
purge.py:93-94 ends the loop but keeps what was already appended. -/
theorem scanLoop_eq_takeWhile (now maxAge : ℤ) (l : List (Path × EntryInfo)) :
    scanLoop now maxAge l =
      ((l.takeWhile fun e => !e.2.raisesScanStat).filter
        (isCandidate now maxAge)).map Prod.fst := by
  induction l with
  | nil => rfl
  | cons e rest ih =>
      by_cases hr : e.2.raisesScanStat = true
      · simp [scanLoop, hr, List.takeWhile_cons]
      · rw [Bool.not_eq_true] at hr
        by_cases hc : isCandidate now maxAge e = true
        · simp [scanLoop, hr, hc, List.takeWhile_cons, ih]
        · rw [Bool.not_eq_true] at hc
          simp [scanLoop, hr, hc, List.takeWhile_cons, ih]

/-- An entry whose scan-time `stat` raises ends the scan: entries after it
contribute nothing, whatever they are. -/
theorem scanLoop_append_raises (now maxAge : ℤ) (l1 l2 : List (Path × EntryInfo))
    (e : Path × EntryInfo) (hr : e.2.raisesScanStat = true) :
    scanLoop now maxAge (l1 ++ e :: l2) = scanLoop now maxAge l1 := by
  induction l1 with
  | nil => simp [scanLoop, hr]
  | cons f rest ih =>
      by_cases hf : f.2.raisesScanStat = true
      · simp [scanLoop, hf]
      · rw [Bool.not_eq_true] at hf
        by_cases hc : isCandidate now maxAge f = true
        · simp [scanLoop, hf, hc, ih]
        · rw [Bool.not_eq_true] at hc
          simp [scanLoop, hf, hc, ih]

/-- Every path the scan yields comes from an `rglob` entry that passes the
`is_file` test and the strict age test. -/
theorem mem_find_old_files (now maxAge : ℤ) (fs : FSTree) (p : Path)
    (hp : p ∈ find_old_files now maxAge fs) :
    ∃ e ∈ rglobEntries [] fs, e.1 = p ∧ e.2.isFileLike = true ∧
      is_older_than now e.2.mtimeOf maxAge = true := by
  rw [find_old_files, scanLoop_eq_takeWhile] at hp
  obtain ⟨e, he, hep⟩ := List.mem_map.mp hp
  obtain ⟨hmem, hcand⟩ := List.mem_filter.mp he
  have hsub : e ∈ rglobEntries [] fs :=
    (List.takeWhile_prefix _).subset hmem
  rw [isCandidate, Bool.and_eq_true] at hcand
  exact ⟨e, hsub, hep, hcand.1, hcand.2⟩

/-- Dry-run deletion is the identity on the filesystem and reports
success. -/
theorem delete_file_dry (fs : FSTree) (p : Path) :
    delete_file true fs p = (true, fs) := rfl

/-- In dry-run mode the per-candidate loop deletes nothing: it returns every
candidate as deleted, the metadata captured against the unchanged
filesystem, no failures, and the filesystem untouched. -/
theorem purgeLoop_dry (now : ℤ) (cs : List Path) (fs : FSTree) :
    purgeLoop now true cs fs = ⟨cs, cs.map (capture_file_info now fs), [], fs⟩ := by
  induction cs with
  | nil => rfl
  | cons p rest ih => simp [purgeLoop, delete_file_dry, ih]

/-- In dry-run mode the empty-directory loop never mutates the
filesystem. -/
theorem rmdirLoop_dry (l : List Path) (fs : FSTree) :
    (rmdirLoop true l fs).2 = fs := by
  induction l with
  | nil => rfl
  | cons p rest ih =>
      rw [rmdirLoop]
      split
      · exact ih
      · split
        · split
          · simpa using ih
          · exact ih
        · exact ih

/-- If the per-candidate loop records no failure, every candidate was
appended to the deleted list, in order. -/
theorem purgeLoop_failed_nil (now : ℤ) (dr : Bool) (cs : List Path) (fs : FSTree)
    (h : (purgeLoop now dr cs fs).failed = []) :
    (purgeLoop now dr cs fs).deleted = cs := by
  induction cs generalizing fs with
  | nil => rfl
  | cons p rest ih =>
      rw [purgeLoop] at h ⊢
      by_cases hok : (delete_file dr fs p).1 = true
      · simp only [hok, if_true] at h ⊢
        exact congrArg (p :: ·) (ih _ h)
      · rw [Bool.not_eq_true] at hok
        simp [hok] at h

/-- A scan over entries none of whose `stat` raises keeps the whole entry
list. -/
theorem takeWhile_eq_self_of_clean {l : List (Path × EntryInfo)}
    (h : ∀ e ∈ l, e.2.raisesScanStat = false) :
    (l.takeWhile fun e => !e.2.raisesScanStat) = l := by
  induction l with
  | nil => rfl
  | cons e rest ih =>
      rw [List.takeWhile_cons]
      simp only [h e (List.mem_cons_self e rest), Bool.not_false, if_true]
      rw [ih fun x hx => h x (List.mem_cons_of_mem e hx)]

theorem fileLike_leaf {u : FSTree} (h : (FSTree.info u).isFileLike = true) :
    isLeafNode u = true := by
  cases u <;> simp_all [FSTree.info, EntryInfo.isFileLike, isLeafNode]

theorem unlinkWouldFail_file {fs : FSTree} {p : Path} {a : FileAttrs}
    (hl : lookup p fs = some (.file a)) : unlinkWouldFail fs p = a.unlinkFails := by
  rw [unlinkWouldFail, delete_file]
  simp only [Bool.false_eq_true, if_false, hl]
  cases a.unlinkFails <;> simp

theorem unlinkWouldFail_link {fs : FSTree} {p : Path} {a : FileAttrs}
    (hl : lookup p fs = some (.linkToFile a)) :
    unlinkWouldFail fs p = a.unlinkFails := by
  rw [unlinkWouldFail, delete_file]
  simp only [Bool.false_eq_true, if_false, hl]
  cases a.unlinkFails <;> simp

theorem delete_file_fail_pair {fs : FSTree} {p : Path}
    (h : (delete_file false fs p).1 = false) : delete_file false fs p = (false, fs) := by
  rw [delete_file] at h ⊢
  simp only [Bool.false_eq_true, if_false] at h ⊢
  cases hl : lookup p fs with
  | none => rfl
  | some t =>
      rw [hl] at h
      cases t with
      | file a =>
          dsimp only at h
          cases hu : a.unlinkFails
          · rw [hu] at h
            simp at h
          · simp [hu]
      | linkToFile a =>
          dsimp only at h
          cases hu : a.unlinkFails
          · rw [hu] at h
            simp at h
          · simp [hu]
      | dir b cs => rfl
      | special => simp at h

theorem delete_file_succ_pair {fs : FSTree} {p : Path} {u : FSTree}
    (hl : lookup p fs = some u) (hfl : (FSTree.info u).isFileLike = true)
    (hok : unlinkWouldFail fs p = false) :
    delete_file false fs p = (true, removePath p fs) := by
  cases u with
  | file a =>
      rw [unlinkWouldFail_file hl] at hok
      rw [delete_file]
      simp [hl, hok]
  | linkToFile a =>
      rw [unlinkWouldFail_link hl] at hok
      rw [delete_file]
      simp [hl, hok]
  | dir b cs => simp [FSTree.info, EntryInfo.isFileLike] at hfl
  | special => simp [FSTree.info, EntryInfo.isFileLike] at hfl

theorem unlinkWouldFail_congr {fs1 fs2 : FSTree} {p : Path}
    (h : lookup p fs1 = lookup p fs2) :
    unlinkWouldFail fs1 p = unlinkWouldFail fs2 p := by
  rw [unlinkWouldFail, unlinkWouldFail, delete_file, delete_file, h]
  cases hl : lookup p fs2 with
  | none => rfl
  | some t =>
      cases t with
      | file a => cases hu : a.unlinkFails <;> simp [hu]
      | linkToFile a => cases hu : a.unlinkFails <;> simp [hu]
      | dir b cs => rfl
      | special => rfl

theorem format_file_size_congr {fs1 fs2 : FSTree} {p : Path}
    (h : lookup p fs1 = lookup p fs2) :
    format_file_size fs1 p = format_file_size fs2 p := by
  rw [format_file_size, format_file_size, h]

theorem capture_file_info_congr {now : ℤ} {fs1 fs2 : FSTree} {p : Path}
    (h : lookup p fs1 = lookup p fs2) :
    capture_file_info now fs1 p = capture_file_info now fs2 p := by
  rw [capture_file_info, capture_file_info, format_file_size_congr h, h]

theorem purgeLoop_real_spec (now : ℤ) : ∀ (cs : List Path) (fs : FSTree),
    wf fs = true → cs.Nodup →
    (∀ p ∈ cs, p ≠ [] ∧ ∃ u, lookup p fs = some u ∧
      (FSTree.info u).isFileLike = true) →
    (purgeLoop now false cs fs).deleted =
        cs.filter (fun p => !(unlinkWouldFail fs p)) ∧
      (purgeLoop now false cs fs).failed =
        cs.filter (fun p => unlinkWouldFail fs p) ∧
      (purgeLoop now false cs fs).infos =
        (cs.filter (fun p => !(unlinkWouldFail fs p))).map (capture_file_info now fs) ∧
      wf (purgeLoop now false cs fs).fs = true ∧
      rglobEntries [] (purgeLoop now false cs fs).fs =
        (rglobEntries [] fs).filter
          (fun e => !((purgeLoop now false cs fs).deleted.contains e.1)) ∧
      (∀ q u2, lookup q fs = some u2 → (FSTree.info u2).isFileLike = true →
        q ∉ (purgeLoop now false cs fs).deleted →
        lookup q (purgeLoop now false cs fs).fs = some u2) := by
  intro cs
  induction cs with
  | nil =>
      intro fs hwf _ _
      refine ⟨rfl, rfl, rfl, hwf, ?_, fun q u2 hq _ _ => hq⟩
      have hz : purgeLoop now false [] fs = ⟨[], [], [], fs⟩ := rfl
      rw [hz]
      symm
      rw [List.filter_eq_self]
      intro e _
      rfl
  | cons p rest ih =>
      intro fs hwf hnd hmem
      obtain ⟨hpne, u, hlu, hufl⟩ := hmem p (List.mem_cons_self _ _)
      have hleafu : isLeafNode u = true := fileLike_leaf hufl
      obtain ⟨hp_notin, hndrest⟩ := List.nodup_cons.mp hnd
      by_cases hfail : unlinkWouldFail fs p = true
      · have h1 : (delete_file false fs p).1 = false := by
          rw [unlinkWouldFail] at hfail
          cases hb : (delete_file false fs p).1
          · rfl
          · rw [hb] at hfail
            simp at hfail
        have hdel : delete_file false fs p = (false, fs) := delete_file_fail_pair h1
        have hloop : purgeLoop now false (p :: rest) fs =
            ⟨(purgeLoop now false rest fs).deleted,
             (purgeLoop now false rest fs).infos,
             p :: (purgeLoop now false rest fs).failed,
             (purgeLoop now false rest fs).fs⟩ := by
          rw [purgeLoop, hdel]
          simp
        have ihr := ih fs hwf hndrest fun q hq => hmem q (List.mem_cons_of_mem _ hq)
        refine ⟨?_, ?_, ?_, ?_, ?_, ?_⟩
        · rw [hloop, List.filter_cons]
          simp only [hfail, Bool.not_true, Bool.false_eq_true, if_false]
          exact ihr.1
        · rw [hloop, List.filter_cons]
          simp only [hfail, if_true]
          exact congrArg (p :: ·) ihr.2.1
        · rw [hloop, List.filter_cons]
          simp only [hfail, Bool.not_true, Bool.false_eq_true, if_false]
          exact ihr.2.2.1
        · rw [hloop]
          exact ihr.2.2.2.1
        · rw [hloop]
          exact ihr.2.2.2.2.1
        · intro q u2 hq hqfl hqnot
          rw [hloop] at hqnot ⊢
          exact ihr.2.2.2.2.2 q u2 hq hqfl hqnot
      · rw [Bool.not_eq_true] at hfail
        have hdel : delete_file false fs p = (true, removePath p fs) :=
          delete_file_succ_pair hlu hufl hfail
        have hwf1 : wf (removePath p fs) = true := wf_removePath p fs hwf
        have hpres : ∀ q, lookup q fs ≠ none → q ≠ p →
            (∃ v, lookup q fs = some v ∧ isLeafNode v = true) →
            lookup q (removePath p fs) = lookup q fs := by
          intro q _ hqp hv
          obtain ⟨v, hlv, hvleaf⟩ := hv
          have hqnp : ¬ (q <+: p) := by
            intro hpre
            exact hqp (prefix_eq_of_leaf hlv hvleaf hlu hpre)
          exact lookup_removePath_of_no_pref p fs u q hlu hleafu hqnp
        have hpresr : ∀ q ∈ rest, lookup q (removePath p fs) = lookup q fs := by
          intro q hq
          obtain ⟨hqne, v, hlv, hvfl⟩ := hmem q (List.mem_cons_of_mem _ hq)
          refine hpres q (by rw [hlv]; exact fun hh => by cases hh) ?_
            ⟨v, hlv, fileLike_leaf hvfl⟩
          intro hqp
          exact hp_notin (hqp ▸ hq)
        have hmem1 : ∀ q ∈ rest, q ≠ [] ∧ ∃ v, lookup q (removePath p fs) = some v ∧
            (FSTree.info v).isFileLike = true := by
          intro q hq
          obtain ⟨hqne, v, hlv, hvfl⟩ := hmem q (List.mem_cons_of_mem _ hq)
          exact ⟨hqne, v, (hpresr q hq).trans hlv, hvfl⟩
        have ihr := ih (removePath p fs) hwf1 hndrest hmem1
        have hloop : purgeLoop now false (p :: rest) fs =
            ⟨p :: (purgeLoop now false rest (removePath p fs)).deleted,
             capture_file_info now fs p ::
               (purgeLoop now false rest (removePath p fs)).infos,
             (purgeLoop now false rest (removePath p fs)).failed,
             (purgeLoop now false rest (removePath p fs)).fs⟩ := by
          rw [purgeLoop, hdel]
          simp
        have hfcong : rest.filter (fun q => !(unlinkWouldFail (removePath p fs) q)) =
            rest.filter (fun q => !(unlinkWouldFail fs q)) :=
          List.filter_congr fun q hq => by rw [unlinkWouldFail_congr (hpresr q hq)]
        have hfcong2 : rest.filter (fun q => unlinkWouldFail (removePath p fs) q) =
            rest.filter (fun q => unlinkWouldFail fs q) :=
          List.filter_congr fun q hq => unlinkWouldFail_congr (hpresr q hq)
        refine ⟨?_, ?_, ?_, ?_, ?_, ?_⟩
        · rw [hloop, List.filter_cons]
          simp only [hfail, Bool.not_false, if_true]
          rw [ihr.1, hfcong]
        · rw [hloop, List.filter_cons]
          simp only [hfail, Bool.false_eq_true, if_false]
          rw [ihr.2.1, hfcong2]
        · rw [hloop, List.filter_cons]
          simp only [hfail, Bool.not_false, if_true, List.map_cons]
          congr 1
          rw [ihr.2.2.1, hfcong]
          exact List.map_congr_left fun q hq =>
            capture_file_info_congr (hpresr q (List.mem_filter.mp hq).1)
        · rw [hloop]
          exact ihr.2.2.2.1
        · rw [hloop]
          have hrg1 : rglobEntries [] (removePath p fs) =
              (rglobEntries [] fs).filter fun e => !(e.1 == p) := by
            have := rglob_removePath p fs u [] hwf hlu hleafu hpne
            rwa [List.nil_append] at this
          rw [ihr.2.2.2.2.1, hrg1, List.filter_filter]
          apply List.filter_congr
          intro e _
          simp only [List.contains_cons, Bool.not_or]
          cases hb : (e.1 == p) <;>
            cases hc : ((purgeLoop now false rest (removePath p fs)).deleted.contains e.1) <;>
              simp [hb, hc]
        · intro q u2 hq hqfl hqnot
          rw [hloop] at hqnot ⊢
          have hqp : q ≠ p := fun hh => hqnot (hh ▸ List.mem_cons_self _ _)
          have hq1 : lookup q (removePath p fs) = some u2 := by
            rw [hpres q (by rw [hq]; exact fun hh => by cases hh) hqp
              ⟨u2, hq, fileLike_leaf hqfl⟩]
            exact hq
          exact ihr.2.2.2.2.2 q u2 hq1 hqfl
            fun hh => hqnot (List.mem_cons_of_mem _ hh)

theorem find_old_files_nodup (now maxAge : ℤ) {fs : FSTree} (hwf : wf fs = true) :
    (find_old_files now maxAge fs).Nodup := by
  rw [find_old_files, scanLoop_eq_takeWhile]
  exact List.Nodup.sublist
    (((List.filter_sublist _).trans (List.takeWhile_sublist _)).map Prod.fst)
    (rglob_nodup fs hwf [])

theorem find_old_files_sound (now maxAge : ℤ) {fs : FSTree} (hwf : wf fs = true) :
    ∀ p ∈ find_old_files now maxAge fs, p ≠ [] ∧
      ∃ u, lookup p fs = some u ∧ (FSTree.info u).isFileLike = true := by
  intro p hp
  obtain ⟨e, he, hex, hfl, _⟩ := mem_find_old_files now maxAge fs p hp
  obtain ⟨q, u, hqne, hpath, hlq, hinfo⟩ := rglob_lookup_of_mem fs hwf [] e he
  rw [List.nil_append] at hpath
  have hq : q = p := by rw [← hpath, hex]
  subst hq
  exact ⟨hqne, u, hlq, by rw [hinfo]; exact hfl⟩

theorem capture_file_info_fallback (now : ℤ) (fs : FSTree) (p : Path)
    (h : metaStatFails fs p = true) :
    capture_file_info now fs p = ⟨p, format_file_path p, .unknown, 0⟩ := by
  rw [metaStatFails] at h
  rw [capture_file_info]
  cases hl : lookup p fs with
  | none => rfl
  | some t =>
      rw [hl] at h
      cases t with
      | file a =>
          dsimp only at h ⊢
          rw [h]
          simp
      | linkToFile a =>
          dsimp only at h ⊢
          rw [h]
          simp
      | dir b cs => rfl
      | special => rfl

theorem insertByDepth_perm (p : Path) : ∀ l : List Path,
    List.Perm (insertByDepth p l) (p :: l) := by
  intro l
  induction l with
  | nil => exact List.Perm.refl _
  | cons q rest ih =>
      rw [insertByDepth]
      by_cases h : q.length < p.length
      · rw [if_pos h]
      · rw [if_neg h]
        exact (List.Perm.cons q ih).trans (List.Perm.swap p q rest)

theorem sortByDepthDesc_perm (l : List Path) : List.Perm (sortByDepthDesc l) l := by
  suffices h : ∀ (l acc : List Path),
      List.Perm (l.foldl (fun acc p => insertByDepth p acc) acc) (acc ++ l) by
    have := h l []
    rwa [List.nil_append] at this
  intro l
  induction l with
  | nil => intro acc; simp
  | cons p rest ih =>
      intro acc
      rw [List.foldl_cons]
      refine (ih (insertByDepth p acc)).trans ?_
      refine (List.Perm.append_right rest (insertByDepth_perm p acc)).trans ?_
      exact List.perm_middle.symm

theorem insertByDepth_pairwise (p : Path) : ∀ l : List Path,
    l.Pairwise (fun a b => b.length ≤ a.length) →
    (insertByDepth p l).Pairwise (fun a b => b.length ≤ a.length) := by
  intro l
  induction l with
  | nil => intro _; simp [insertByDepth]
  | cons q rest ih =>
      intro hp
      obtain ⟨hq, hrest⟩ := List.pairwise_cons.mp hp
      rw [insertByDepth]
      by_cases h : q.length < p.length
      · rw [if_pos h]
        refine List.pairwise_cons.mpr ⟨?_, hp⟩
        intro x hx
        rcases List.mem_cons.mp hx with hx | hx
        · rw [hx]; omega
        · have := hq x hx; omega
      · rw [if_neg h]
        refine List.pairwise_cons.mpr ⟨?_, ih hrest⟩
        intro x hx
        have hx2 := (insertByDepth_perm p rest).mem_iff.mp hx
        rcases List.mem_cons.mp hx2 with hx2 | hx2
        · rw [hx2]; omega
        · exact hq x hx2

theorem sortByDepthDesc_pairwise (l : List Path) :
    (sortByDepthDesc l).Pairwise (fun a b => b.length ≤ a.length) := by
  suffices h : ∀ (l acc : List Path),
      acc.Pairwise (fun a b => b.length ≤ a.length) →
      (l.foldl (fun acc p => insertByDepth p acc) acc).Pairwise
        (fun a b => b.length ≤ a.length) from h l [] (by simp)
  intro l
  induction l with
  | nil => intro acc hacc; exact hacc
  | cons p rest ih =>
      intro acc hacc
      rw [List.foldl_cons]
      exact ih _ (insertByDepth_pairwise p acc hacc)

/-- The directory selection inside `dirPaths`, expressed through `filter`
and `map`. -/
theorem filterMap_dirs_eq (l : List (Path × EntryInfo)) :
    (l.filterMap fun e =>
      match e.2 with
      | .dir _ => some e.1
      | _ => none) =
    (l.filter fun e =>
      match e.2 with
      | .dir _ => true
      | _ => false).map Prod.fst := by
  induction l with
  | nil => rfl
  | cons e rest ih =>
      rw [List.filterMap_cons, List.filter_cons]
      cases hi : e.2 <;> simp [hi, ih]

theorem mem_dirPaths_iff {fs : FSTree} (hwf : wf fs = true) {d : Path} :
    d ∈ dirPaths fs ↔ d ≠ [] ∧ ∃ b cs, lookup d fs = some (.dir b cs) := by
  rw [dirPaths, (sortByDepthDesc_perm _).mem_iff, filterMap_dirs_eq]
  constructor
  · intro h
    obtain ⟨e, he, hex⟩ := List.mem_map.mp h
    obtain ⟨hein, hdir⟩ := List.mem_filter.mp he
    obtain ⟨q, u, hqne, hpath, hlq, hinfo⟩ := rglob_lookup_of_mem fs hwf [] e hein
    rw [List.nil_append] at hpath
    have hq : q = d := by rw [← hpath, hex]
    subst hq
    cases u with
    | dir b cs => exact ⟨hqne, b, cs, hlq⟩
    | file a => rw [← hinfo] at hdir; simp [FSTree.info] at hdir
    | linkToFile a => rw [← hinfo] at hdir; simp [FSTree.info] at hdir
    | special => rw [← hinfo] at hdir; simp [FSTree.info] at hdir
  · rintro ⟨hdne, b, cs, hl⟩
    have hmem := lookup_mem_rglob d fs [] (.dir b cs) hl hdne
    rw [List.nil_append] at hmem
    refine List.mem_map.mpr ⟨(d, FSTree.info (.dir b cs)), List.mem_filter.mpr ⟨hmem, ?_⟩, rfl⟩
    simp [FSTree.info]

theorem dirPaths_nodup {fs : FSTree} (hwf : wf fs = true) :
    (dirPaths fs).Nodup := by
  rw [dirPaths]
  refine (sortByDepthDesc_perm _).nodup_iff.mpr ?_
  rw [filterMap_dirs_eq]
  exact List.Nodup.sublist ((List.filter_sublist _).map Prod.fst) (rglob_nodup fs hwf [])

theorem dirPaths_ne_nil {fs : FSTree} (hwf : wf fs = true) :
    ∀ d ∈ dirPaths fs, d ≠ [] := by
  intro d hd
  exact ((mem_dirPaths_iff hwf).mp hd).1

theorem dirPaths_pairwise (fs : FSTree) :
    (dirPaths fs).Pairwise (fun a b => b.length ≤ a.length) :=
  sortByDepthDesc_pairwise _

theorem lookup_some_of_prefix {t : FSTree} {q r : Path} {u : FSTree}
    (h : lookup r t = some u) (hpre : q <+: r) : ∃ v, lookup q t = some v := by
  obtain ⟨ext, rfl⟩ := hpre
  rw [lookup_append] at h
  cases hl : lookup q t with
  | none =>
      rw [hl] at h
      simp at h
  | some v => exact ⟨v, rfl⟩

/-- What one real-mode pass of the empty-directory loop does, against a
deepest-first, duplicate-free list of non-root directory paths: the result
is well-formed, only listed directories are removed, the `rglob` view loses
exactly the removed paths, file-like objects and unresolvable paths are
untouched, paths unrelated to the list are untouched, and at the end no
listed directory is left empty with a working `rmdir` — everything
removable was removed. -/
theorem rmdirLoop_real_spec : ∀ (D : List Path) (fs : FSTree),
    wf fs = true → D.Nodup → (∀ d ∈ D, d ≠ []) →
    D.Pairwise (fun a b => b.length ≤ a.length) →
    wf (rmdirLoop false D fs).2 = true ∧
      (∀ r ∈ (rmdirLoop false D fs).1, r ∈ D) ∧
      rglobEntries [] (rmdirLoop false D fs).2 =
        (rglobEntries [] fs).filter
          (fun e => !((rmdirLoop false D fs).1.contains e.1)) ∧
      (∀ q u, lookup q fs = some u → (FSTree.info u).isFileLike = true →
        lookup q (rmdirLoop false D fs).2 = some u) ∧
      (∀ q, lookup q fs = none → lookup q (rmdirLoop false D fs).2 = none) ∧
      (∀ q, (∀ r ∈ D, ¬ (q <+: r)) →
        lookup q (rmdirLoop false D fs).2 = lookup q fs) ∧
      (∀ d ∈ D, lookup d (rmdirLoop false D fs).2 ≠ some (.dir false .nil)) := by
  intro D
  induction D with
  | nil =>
      intro fs hwf _ _ _
      refine ⟨hwf, fun r hr => hr, ?_, fun q u hq _ => hq, fun q hq => hq,
        fun q _ => rfl, fun d hd => absurd hd (List.not_mem_nil d)⟩
      have hz : rmdirLoop false [] fs = ([], fs) := rfl
      rw [hz]
      symm
      rw [List.filter_eq_self]
      intro e _
      rfl
  | cons p Drest ih =>
      intro fs hwf hnd hne hpair
      obtain ⟨hp_notin, hndrest⟩ := List.nodup_cons.mp hnd
      obtain ⟨hplen, hpairrest⟩ := List.pairwise_cons.mp hpair
      have hpne : p ≠ [] := hne p (List.mem_cons_self _ _)
      have hne2 : ∀ d ∈ Drest, d ≠ [] := fun d hd => hne d (List.mem_cons_of_mem _ hd)
      have hprefix_rest : ∀ r ∈ Drest, ¬ (p <+: r) := by
        intro r hr hpre
        have hlen := hpre.length_le
        have hlen2 := hplen r hr
        have heq := hpre.eq_of_length (by omega)
        exact hp_notin (heq ▸ hr)
      have ihu := ih fs hwf hndrest hne2 hpairrest
      have skipCase : rmdirLoop false (p :: Drest) fs = rmdirLoop false Drest fs →
          lookup p (rmdirLoop false Drest fs).2 ≠ some (.dir false .nil) →
          wf (rmdirLoop false (p :: Drest) fs).2 = true ∧
            (∀ r ∈ (rmdirLoop false (p :: Drest) fs).1, r ∈ p :: Drest) ∧
            rglobEntries [] (rmdirLoop false (p :: Drest) fs).2 =
              (rglobEntries [] fs).filter
                (fun e => !((rmdirLoop false (p :: Drest) fs).1.contains e.1)) ∧
            (∀ q u, lookup q fs = some u → (FSTree.info u).isFileLike = true →
              lookup q (rmdirLoop false (p :: Drest) fs).2 = some u) ∧
            (∀ q, lookup q fs = none →
              lookup q (rmdirLoop false (p :: Drest) fs).2 = none) ∧
            (∀ q, (∀ r ∈ p :: Drest, ¬ (q <+: r)) →
              lookup q (rmdirLoop false (p :: Drest) fs).2 = lookup q fs) ∧
            (∀ d ∈ p :: Drest,
              lookup d (rmdirLoop false (p :: Drest) fs).2 ≠
                some (.dir false .nil)) := by
        intro hloop hpfinal
        rw [hloop]
        refine ⟨ihu.1, fun r hr => List.mem_cons_of_mem _ (ihu.2.1 r hr), ihu.2.2.1,
          ihu.2.2.2.1, ihu.2.2.2.2.1, ?_, ?_⟩
        · intro q hq
          exact ihu.2.2.2.2.2.1 q fun r hr => hq r (List.mem_cons_of_mem _ hr)
        · intro d hd
          rcases List.mem_cons.mp hd with hd | hd
          · subst hd
            exact hpfinal
          · exact ihu.2.2.2.2.2.2 d hd
      cases hl : lookup p fs with
      | none =>
          refine skipCase ?_ ?_
          · rw [rmdirLoop, if_neg hpne]
            simp [hl]
          · intro heq
            rw [ihu.2.2.2.2.1 p hl] at heq
            cases heq
      | some t =>
          cases t with
          | file a =>
              refine skipCase ?_ ?_
              · rw [rmdirLoop, if_neg hpne]
                simp [hl]
              · intro heq
                rw [ihu.2.2.2.2.2.1 p hprefix_rest, hl] at heq
                simp at heq
          | linkToFile a =>
              refine skipCase ?_ ?_
              · rw [rmdirLoop, if_neg hpne]
                simp [hl]
              · intro heq
                rw [ihu.2.2.2.2.2.1 p hprefix_rest, hl] at heq
                simp at heq
          | special =>
              refine skipCase ?_ ?_
              · rw [rmdirLoop, if_neg hpne]
                simp [hl]
              · intro heq
                rw [ihu.2.2.2.2.2.1 p hprefix_rest, hl] at heq
                simp at heq
          | dir bF cs =>
              cases hnil : cs.isNil
              · refine skipCase ?_ ?_
                · rw [rmdirLoop, if_neg hpne]
                  simp [hl, hnil]
                · intro heq
                  rw [ihu.2.2.2.2.2.1 p hprefix_rest, hl] at heq
                  simp only [Option.some.injEq] at heq
                  injection heq with hbf2 hcs2
                  rw [hcs2] at hnil
                  simp [FSList.isNil] at hnil
              · rw [FSList.isNil_iff] at hnil
                subst hnil
                cases hbf : bF
                · subst hbf
                  have hleaf : isLeafNode (FSTree.dir false .nil) = true := rfl
                  have hloop : rmdirLoop false (p :: Drest) fs =
                      (p :: (rmdirLoop false Drest (removePath p fs)).1,
                       (rmdirLoop false Drest (removePath p fs)).2) := by
                    rw [rmdirLoop, if_neg hpne]
                    simp [hl, FSList.isNil]
                  have hwf1 : wf (removePath p fs) = true := wf_removePath p fs hwf
                  have ihr := ih (removePath p fs) hwf1 hndrest hne2 hpairrest
                  rw [hloop]
                  refine ⟨ihr.1, ?_, ?_, ?_, ?_, ?_, ?_⟩
                  · intro r hr
                    rcases List.mem_cons.mp hr with hr | hr
                    · exact hr ▸ List.mem_cons_self _ _
                    · exact List.mem_cons_of_mem _ (ihr.2.1 r hr)
                  · have hrg1 : rglobEntries [] (removePath p fs) =
                        (rglobEntries [] fs).filter (fun e => !(e.1 == p)) := by
                      have := rglob_removePath p fs _ [] hwf hl hleaf hpne
                      rwa [List.nil_append] at this
                    rw [ihr.2.2.1, hrg1, List.filter_filter]
                    apply List.filter_congr
                    intro e _
                    simp only [List.contains_cons, Bool.not_or]
                    cases hb : (e.1 == p) <;>
                      cases hc : ((rmdirLoop false Drest (removePath p fs)).1.contains e.1) <;>
                        simp [hb, hc]
                  · intro q u hq hfl
                    have hqp : ¬ (q <+: p) := by
                      intro hpre
                      have hqe := prefix_eq_of_leaf hq (fileLike_leaf hfl) hl hpre
                      rw [hqe, hl] at hq
                      cases hq
                      simp [FSTree.info, EntryInfo.isFileLike] at hfl
                    have hq1 : lookup q (removePath p fs) = some u := by
                      rw [lookup_removePath_of_no_pref p fs _ q hl hleaf hqp]
                      exact hq
                    exact ihr.2.2.2.1 q u hq1 hfl
                  · intro q hq
                    have hqp : ¬ (q <+: p) := by
                      intro hpre
                      obtain ⟨v, hv⟩ := lookup_some_of_prefix hl hpre
                      rw [hq] at hv
                      cases hv
                    have hq1 : lookup q (removePath p fs) = none := by
                      rw [lookup_removePath_of_no_pref p fs _ q hl hleaf hqp]
                      exact hq
                    exact ihr.2.2.2.2.1 q hq1
                  · intro q hq
                    have hqp : ¬ (q <+: p) := hq p (List.mem_cons_self _ _)
                    rw [ihr.2.2.2.2.2.1 q fun r hr => hq r (List.mem_cons_of_mem _ hr)]
                    exact lookup_removePath_of_no_pref p fs _ q hl hleaf hqp
                  · intro d hd
                    rcases List.mem_cons.mp hd with hd | hd
                    · subst hd
                      have h0 : lookup d (removePath d fs) = none :=
                        lookup_removePath_self d fs _ hpne hl
                      rw [ihr.2.2.2.2.1 d h0]
                      exact fun heq => by cases heq
                    · exact ihr.2.2.2.2.2.2 d hd
                · subst hbf
                  refine skipCase ?_ ?_
                  · rw [rmdirLoop, if_neg hpne]
                    simp [hl, FSList.isNil]
                  · intro heq
                    rw [ihu.2.2.2.2.2.1 p hprefix_rest, hl] at heq
                    simp at heq

/-- A real-mode pass over directories none of which is removable (each is
the root, or does not currently resolve to an empty directory with a
working `rmdir`) removes nothing and leaves the filesystem unchanged. -/
theorem rmdirLoop_noop : ∀ (D : List Path) (fs : FSTree),
    (∀ d ∈ D, d = [] ∨ lookup d fs ≠ some (.dir false .nil)) →
    rmdirLoop false D fs = ([], fs) := by
  intro D
  induction D with
  | nil => intro fs _; rfl
  | cons p Drest ih =>
      intro fs hD
      rcases hD p (List.mem_cons_self _ _) with hp | hp
      · rw [rmdirLoop, if_pos hp]
        exact ih fs fun d hd => hD d (List.mem_cons_of_mem _ hd)
      · have hrec := ih fs fun d hd => hD d (List.mem_cons_of_mem _ hd)
        by_cases hpe : p = []
        · rw [rmdirLoop, if_pos hpe]
          exact hrec
        · rw [rmdirLoop, if_neg hpe]
          cases hl : lookup p fs with
          | none => simpa [hl] using hrec
          | some t =>
              cases t with
              | file a => simpa [hl] using hrec
              | linkToFile a => simpa [hl] using hrec
              | special => simpa [hl] using hrec
              | dir bF cs =>
                  cases hnil : cs.isNil
                  · simpa [hl, hnil] using hrec
                  · rw [FSList.isNil_iff] at hnil
                    subst hnil
                    cases hbf : bF
                    · subst hbf
                      exact absurd hl hp
                    · subst hbf
                      simpa [hl, FSList.isNil] using hrec

theorem contains_eq_false_of_not_mem {l : List Path} {p : Path} (h : p ∉ l) :
    l.contains p = false := by
  cases hb : l.contains p
  · rfl
  · exact absurd (List.elem_iff.mp hb) h

theorem mem_of_contains_eq_true {l : List Path} {p : Path}
    (h : l.contains p = true) : p ∈ l :=
  List.elem_iff.mp h

/-- Running the per-candidate loop on candidates whose deletion all fails
leaves the filesystem untouched: everything lands in the failed list. -/
theorem purgeLoop_all_fail (now : ℤ) : ∀ (cs : List Path) (fs : FSTree),
    (∀ p ∈ cs, (delete_file false fs p).1 = false) →
    purgeLoop now false cs fs = ⟨[], [], cs, fs⟩ := by
  intro cs
  induction cs with
  | nil => intro fs _; rfl
  | cons p rest ih =>
      intro fs h
      have hp := h p (List.mem_cons_self _ _)
      have hpair := delete_file_fail_pair hp
      rw [purgeLoop, hpair]
      simp only [Bool.false_eq_true, if_false]
      rw [ih fs fun q hq => h q (List.mem_cons_of_mem _ hq)]

/-- Filtering the entry list by a path predicate commutes with the scan,
provided every dropped entry has a non-raising `stat`. -/
theorem scanLoop_filter (now maxAge : ℤ) (Kp : Path → Bool) :
    ∀ l : List (Path × EntryInfo),
    (∀ e ∈ l, Kp e.1 = false → e.2.raisesScanStat = false) →
    scanLoop now maxAge (l.filter fun e => Kp e.1) =
      (scanLoop now maxAge l).filter Kp := by
  intro l
  induction l with
  | nil => intro _; rfl
  | cons e rest ih =>
      intro hcl
      have hrest := fun x hx => hcl x (List.mem_cons_of_mem _ hx)
      rw [List.filter_cons]
      cases hk : Kp e.1
      · have hnr : e.2.raisesScanStat = false := hcl e (List.mem_cons_self _ _) hk
        simp only [Bool.false_eq_true, if_false]
        rw [ih hrest, scanLoop, hnr]
        simp only [Bool.false_eq_true, if_false]
        by_cases hc : isCandidate now maxAge e = true
        · rw [if_pos hc, List.filter_cons]
          simp [hk]
        · rw [if_neg hc]
      · simp only [if_true]
        rw [scanLoop, scanLoop]
        cases hr : e.2.raisesScanStat
        · simp only [Bool.false_eq_true, if_false]
          by_cases hc : isCandidate now maxAge e = true
          · rw [if_pos hc, if_pos hc, List.filter_cons]
            simp only [hk, if_true]
            rw [ih hrest]
          · rw [if_neg hc, if_neg hc]
            exact ih hrest
        · simp

theorem eq_entry_of_fst_eq {l : List (Path × EntryInfo)}
    (h : (l.map Prod.fst).Nodup) {e e0 : Path × EntryInfo}
    (he : e ∈ l) (he0 : e0 ∈ l) (hf : e.1 = e0.1) : e = e0 := by
  by_contra hne
  have hpw : l.Pairwise (fun a b => a.1 ≠ b.1) := List.pairwise_map.mp h
  have hsymm : Symmetric fun a b : Path × EntryInfo => a.1 ≠ b.1 :=
    fun a b hab hh => hab hh.symm
  exact hpw.forall hsymm he he0 hne hf

/-- Every entry of a well-formed tree sharing its path with a scan
candidate has a non-raising `stat` (it is the candidate's own entry). -/
theorem find_old_files_entry_clean (now maxAge : ℤ) {fs : FSTree}
    (hwf : wf fs = true) {p : Path} (hp : p ∈ find_old_files now maxAge fs) :
    ∀ e ∈ rglobEntries [] fs, e.1 = p → e.2.raisesScanStat = false := by
  intro e he hep
  rw [find_old_files, scanLoop_eq_takeWhile] at hp
  obtain ⟨e0, he0, he0p⟩ := List.mem_map.mp hp
  obtain ⟨he0tw, _⟩ := List.mem_filter.mp he0
  have he0raise : e0.2.raisesScanStat = false := by
    have := List.mem_takeWhile_imp he0tw
    rwa [Bool.not_eq_true'] at this
  have he0in : e0 ∈ rglobEntries [] fs := (List.takeWhile_prefix _).subset he0tw
  have heq : e = e0 :=
    eq_entry_of_fst_eq (rglob_nodup fs hwf []) he he0in (by rw [hep, he0p])
  rw [heq]
  exact he0raise


/-! ### Claim C9 -/

/-- C9: running a second real purge cycle immediately after a completed real
cycle, with the same clock and no filesystem changes in between, deletes
zero files and removes zero directories, leaves the filesystem exactly as
the first cycle left it, and dispatches the no-action notification — cycles
are idempotent on an unchanged filesystem. -/
theorem claim9_idempotent_cycle (cfg : Config) (hreal : cfg.dry_run = false)
    (now : ℤ) (fs : FSTree) (hwf : wf fs = true) :
    (run_purge cfg now (run_purge cfg now fs).fs).results.deleted_files = [] ∧
      (run_purge cfg now (run_purge cfg now fs).fs).results.removed_directories = [] ∧
      (run_purge cfg now (run_purge cfg now fs).fs).notification =
        send_no_action_notification cfg now ∧
      (run_purge cfg now (run_purge cfg now fs).fs).fs = (run_purge cfg now fs).fs := by
  obtain ⟨maxA, intv, dr⟩ := cfg
  cases dr
  case true => simp at hreal
  case false =>
  have hnd1 := find_old_files_nodup now maxA hwf
  have hsound1 := find_old_files_sound now maxA hwf
  have hspec := purgeLoop_real_spec now (find_old_files now maxA fs) fs hwf hnd1 hsound1
  have hwf1 : wf (purgeLoop now false (find_old_files now maxA fs) fs).fs = true := hspec.2.2.2.1
  have hE1 := hspec.2.2.2.2.1
  have hR := rmdirLoop_real_spec (dirPaths (purgeLoop now false (find_old_files now maxA fs) fs).fs) (purgeLoop now false (find_old_files now maxA fs) fs).fs hwf1 (dirPaths_nodup hwf1)
    (dirPaths_ne_nil hwf1) (dirPaths_pairwise (purgeLoop now false (find_old_files now maxA fs) fs).fs)
  have hwf2 : wf (rmdirLoop false (dirPaths (purgeLoop now false (find_old_files now maxA fs) fs).fs) (purgeLoop now false (find_old_files now maxA fs) fs).fs).2 = true := hR.1
  have hE2 := hR.2.2.1
  -- every entry dropped between the two scans has a non-raising stat
  have hclean : ∀ e ∈ rglobEntries [] fs, (fun q => !((purgeLoop now false (find_old_files now maxA fs) fs).deleted.contains q) && !((rmdirLoop false (dirPaths (purgeLoop now false (find_old_files now maxA fs) fs).fs) (purgeLoop now false (find_old_files now maxA fs) fs).fs).1.contains q)) e.1 = false →
      e.2.raisesScanStat = false := by
    intro e he hk
    cases hb1 : ((purgeLoop now false (find_old_files now maxA fs) fs).deleted.contains e.1)
    · cases hb2 : ((rmdirLoop false (dirPaths (purgeLoop now false (find_old_files now maxA fs) fs).fs) (purgeLoop now false (find_old_files now maxA fs) fs).fs).1.contains e.1)
      · exfalso
        have hkk : (!((purgeLoop now false (find_old_files now maxA fs) fs).deleted.contains e.1) && !((rmdirLoop false (dirPaths (purgeLoop now false (find_old_files now maxA fs) fs).fs) (purgeLoop now false (find_old_files now maxA fs) fs).fs).1.contains e.1)) = false := hk
        rw [hb1, hb2] at hkk
        simp at hkk
      · have hmD := hR.2.1 e.1 (mem_of_contains_eq_true hb2)
        obtain ⟨hne1, b, cs, hl1⟩ := (mem_dirPaths_iff hwf1).mp hmD
        have hment1 := lookup_mem_rglob e.1 (purgeLoop now false (find_old_files now maxA fs) fs).fs [] (.dir b cs) hl1 hne1
        rw [List.nil_append, hE1] at hment1
        have hment := (List.mem_filter.mp hment1).1
        have hequ := eq_entry_of_fst_eq (rglob_nodup fs hwf []) he hment rfl
        have hinfoeq : e.2 = FSTree.info (.dir b cs) := congrArg Prod.snd hequ
        rw [hinfoeq]
        rfl
    · have hmdel := mem_of_contains_eq_true hb1
      rw [hspec.1] at hmdel
      have hmcs := (List.mem_filter.mp hmdel).1
      exact find_old_files_entry_clean now maxA hwf hmcs e he rfl
  -- the second scan sees exactly the surviving entries
  have hEK : rglobEntries [] (rmdirLoop false (dirPaths (purgeLoop now false (find_old_files now maxA fs) fs).fs) (purgeLoop now false (find_old_files now maxA fs) fs).fs).2 =
      (rglobEntries [] fs).filter fun e => (fun q => !((purgeLoop now false (find_old_files now maxA fs) fs).deleted.contains q) && !((rmdirLoop false (dirPaths (purgeLoop now false (find_old_files now maxA fs) fs).fs) (purgeLoop now false (find_old_files now maxA fs) fs).fs).1.contains q)) e.1 := by
    rw [hE2, hE1, List.filter_filter]
    apply List.filter_congr
    intro e _
    cases hb1 : ((purgeLoop now false (find_old_files now maxA fs) fs).deleted.contains e.1) <;>
      cases hb2 : ((rmdirLoop false (dirPaths (purgeLoop now false (find_old_files now maxA fs) fs).fs) (purgeLoop now false (find_old_files now maxA fs) fs).fs).1.contains e.1) <;>
        simp only [hb1, hb2] <;> decide
  have hscan2 : (find_old_files now maxA (rmdirLoop false (dirPaths (purgeLoop now false (find_old_files now maxA fs) fs).fs) (purgeLoop now false (find_old_files now maxA fs) fs).fs).2) = (find_old_files now maxA fs).filter (fun q => !((purgeLoop now false (find_old_files now maxA fs) fs).deleted.contains q) && !((rmdirLoop false (dirPaths (purgeLoop now false (find_old_files now maxA fs) fs).fs) (purgeLoop now false (find_old_files now maxA fs) fs).fs).1.contains q)) := by
    have hflt := scanLoop_filter now maxA (fun q => !((purgeLoop now false (find_old_files now maxA fs) fs).deleted.contains q) && !((rmdirLoop false (dirPaths (purgeLoop now false (find_old_files now maxA fs) fs).fs) (purgeLoop now false (find_old_files now maxA fs) fs).fs).1.contains q)) (rglobEntries [] fs) hclean
    show scanLoop now maxA (rglobEntries [] (rmdirLoop false (dirPaths (purgeLoop now false (find_old_files now maxA fs) fs).fs) (purgeLoop now false (find_old_files now maxA fs) fs).fs).2) = _
    rw [hEK]
    exact hflt
  -- and those survivors are exactly the first cycle's failed files
  have hscan2f : (find_old_files now maxA (rmdirLoop false (dirPaths (purgeLoop now false (find_old_files now maxA fs) fs).fs) (purgeLoop now false (find_old_files now maxA fs) fs).fs).2) = (find_old_files now maxA fs).filter (fun p => unlinkWouldFail fs p) := by
    rw [hscan2]
    apply List.filter_congr
    intro p hp
    show (!((purgeLoop now false (find_old_files now maxA fs) fs).deleted.contains p) && !((rmdirLoop false (dirPaths (purgeLoop now false (find_old_files now maxA fs) fs).fs) (purgeLoop now false (find_old_files now maxA fs) fs).fs).1.contains p)) = unlinkWouldFail fs p
    have hpnotdir : (rmdirLoop false (dirPaths (purgeLoop now false (find_old_files now maxA fs) fs).fs) (purgeLoop now false (find_old_files now maxA fs) fs).fs).1.contains p = false := by
      cases hb : (rmdirLoop false (dirPaths (purgeLoop now false (find_old_files now maxA fs) fs).fs) (purgeLoop now false (find_old_files now maxA fs) fs).fs).1.contains p
      · rfl
      · exfalso
        have hpD := hR.2.1 p (mem_of_contains_eq_true hb)
        obtain ⟨hne1, b, cs, hl1⟩ := (mem_dirPaths_iff hwf1).mp hpD
        have hment1 := lookup_mem_rglob p (purgeLoop now false (find_old_files now maxA fs) fs).fs [] (.dir b cs) hl1 hne1
        rw [List.nil_append, hE1] at hment1
        have hment := (List.mem_filter.mp hment1).1
        obtain ⟨hpne1, u, hlu, hufl⟩ := hsound1 p hp
        have hmentu := lookup_mem_rglob p fs [] u hlu hpne1
        rw [List.nil_append] at hmentu
        have hequ := eq_entry_of_fst_eq (rglob_nodup fs hwf []) hment hmentu rfl
        have hinfoeq : FSTree.info (.dir b cs) = FSTree.info u :=
          congrArg Prod.snd hequ
        rw [← hinfoeq] at hufl
        simp [FSTree.info, EntryInfo.isFileLike] at hufl
    cases hfp : unlinkWouldFail fs p
    · have hmemdel : p ∈ (purgeLoop now false (find_old_files now maxA fs) fs).deleted := by
        rw [hspec.1]
        exact List.mem_filter.mpr ⟨hp, by simp [hfp]⟩
      have hc1 : (purgeLoop now false (find_old_files now maxA fs) fs).deleted.contains p = true := List.elem_iff.mpr hmemdel
      rw [hc1]
      simp
    · have hnot : p ∉ (purgeLoop now false (find_old_files now maxA fs) fs).deleted := by
        rw [hspec.1]
        intro hmem
        have hcond := (List.mem_filter.mp hmem).2
        rw [hfp] at hcond
        simp at hcond
      have hc1 : (purgeLoop now false (find_old_files now maxA fs) fs).deleted.contains p = false := contains_eq_false_of_not_mem hnot
      rw [hc1, hpnotdir]
      simp
  -- every second-cycle candidate still fails to delete
  have hfailfacts : ∀ q ∈ (find_old_files now maxA fs).filter (fun p => unlinkWouldFail fs p),
      lookup q (rmdirLoop false (dirPaths (purgeLoop now false (find_old_files now maxA fs) fs).fs) (purgeLoop now false (find_old_files now maxA fs) fs).fs).2 = lookup q fs ∧ (delete_file false (rmdirLoop false (dirPaths (purgeLoop now false (find_old_files now maxA fs) fs).fs) (purgeLoop now false (find_old_files now maxA fs) fs).fs).2 q).1 = false := by
    intro q hq
    obtain ⟨hqcs, hqf⟩ := List.mem_filter.mp hq
    obtain ⟨hqne, u, hlu, hufl⟩ := hsound1 q hqcs
    have hqnotdel : q ∉ (purgeLoop now false (find_old_files now maxA fs) fs).deleted := by
      rw [hspec.1]
      intro hm
      have hcond := (List.mem_filter.mp hm).2
      rw [hqf] at hcond
      simp at hcond
    have h1 : lookup q (purgeLoop now false (find_old_files now maxA fs) fs).fs = some u := hspec.2.2.2.2.2 q u hlu hufl hqnotdel
    have h2 : lookup q (rmdirLoop false (dirPaths (purgeLoop now false (find_old_files now maxA fs) fs).fs) (purgeLoop now false (find_old_files now maxA fs) fs).fs).2 = some u := hR.2.2.2.1 q u h1 hufl
    have hle : lookup q (rmdirLoop false (dirPaths (purgeLoop now false (find_old_files now maxA fs) fs).fs) (purgeLoop now false (find_old_files now maxA fs) fs).fs).2 = lookup q fs := by rw [h2, hlu]
    refine ⟨hle, ?_⟩
    have hcong := unlinkWouldFail_congr hle
    rw [hqf] at hcong
    cases hb : (delete_file false (rmdirLoop false (dirPaths (purgeLoop now false (find_old_files now maxA fs) fs).fs) (purgeLoop now false (find_old_files now maxA fs) fs).fs).2 q).1
    · rfl
    · rw [unlinkWouldFail, hb] at hcong
      simp at hcong
  -- second deletion phase: nothing deleted, filesystem untouched
  have hP2 : purgeLoop now false (find_old_files now maxA (rmdirLoop false (dirPaths (purgeLoop now false (find_old_files now maxA fs) fs).fs) (purgeLoop now false (find_old_files now maxA fs) fs).fs).2) (rmdirLoop false (dirPaths (purgeLoop now false (find_old_files now maxA fs) fs).fs) (purgeLoop now false (find_old_files now maxA fs) fs).fs).2 = ⟨[], [], (find_old_files now maxA (rmdirLoop false (dirPaths (purgeLoop now false (find_old_files now maxA fs) fs).fs) (purgeLoop now false (find_old_files now maxA fs) fs).fs).2), (rmdirLoop false (dirPaths (purgeLoop now false (find_old_files now maxA fs) fs).fs) (purgeLoop now false (find_old_files now maxA fs) fs).fs).2⟩ := by
    apply purgeLoop_all_fail
    intro p hp
    rw [hscan2f] at hp
    exact (hfailfacts p hp).2
  -- second removal phase: nothing is removable any more
  have hnoop : rmdirLoop false (dirPaths (rmdirLoop false (dirPaths (purgeLoop now false (find_old_files now maxA fs) fs).fs) (purgeLoop now false (find_old_files now maxA fs) fs).fs).2) (rmdirLoop false (dirPaths (purgeLoop now false (find_old_files now maxA fs) fs).fs) (purgeLoop now false (find_old_files now maxA fs) fs).fs).2 = ([], (rmdirLoop false (dirPaths (purgeLoop now false (find_old_files now maxA fs) fs).fs) (purgeLoop now false (find_old_files now maxA fs) fs).fs).2) := by
    apply rmdirLoop_noop
    intro d hd
    right
    obtain ⟨hdne, b, cs, hl2⟩ := (mem_dirPaths_iff hwf2).mp hd
    have hm2 := lookup_mem_rglob d (rmdirLoop false (dirPaths (purgeLoop now false (find_old_files now maxA fs) fs).fs) (purgeLoop now false (find_old_files now maxA fs) fs).fs).2 [] (.dir b cs) hl2 hdne
    rw [List.nil_append, hE2] at hm2
    have hm1 := (List.mem_filter.mp hm2).1
    obtain ⟨q, u, hqne, hpath, hlq, hinfo⟩ := rglob_lookup_of_mem (purgeLoop now false (find_old_files now maxA fs) fs).fs hwf1 [] _ hm1
    rw [List.nil_append] at hpath
    have hqd : q = d := by rw [← hpath]
    subst hqd
    cases u with
    | dir b2 cs2x =>
        have hdD1 : q ∈ dirPaths (purgeLoop now false (find_old_files now maxA fs) fs).fs :=
          (mem_dirPaths_iff hwf1).mpr ⟨hqne, b2, cs2x, hlq⟩
        exact hR.2.2.2.2.2.2 q hdD1
    | file a => simp [FSTree.info] at hinfo
    | linkToFile a => simp [FSTree.info] at hinfo
    | special => simp [FSTree.info] at hinfo
  -- assembly
  have hrunfs : (run_purge ⟨maxA, intv, false⟩ now fs).fs = (rmdirLoop false (dirPaths (purgeLoop now false (find_old_files now maxA fs) fs).fs) (purgeLoop now false (find_old_files now maxA fs) fs).fs).2 := rfl
  rw [hrunfs]
  have hdel2 : (run_purge ⟨maxA, intv, false⟩ now (rmdirLoop false (dirPaths (purgeLoop now false (find_old_files now maxA fs) fs).fs) (purgeLoop now false (find_old_files now maxA fs) fs).fs).2).results.deleted_files = [] := by
    show (purgeLoop now false (find_old_files now maxA (rmdirLoop false (dirPaths (purgeLoop now false (find_old_files now maxA fs) fs).fs) (purgeLoop now false (find_old_files now maxA fs) fs).fs).2) (rmdirLoop false (dirPaths (purgeLoop now false (find_old_files now maxA fs) fs).fs) (purgeLoop now false (find_old_files now maxA fs) fs).fs).2).deleted = []
    rw [hP2]
  have hrem2 : (run_purge ⟨maxA, intv, false⟩ now (rmdirLoop false (dirPaths (purgeLoop now false (find_old_files now maxA fs) fs).fs) (purgeLoop now false (find_old_files now maxA fs) fs).fs).2).results.removed_directories = [] := by
    show (rmdirLoop false (dirPaths (purgeLoop now false (find_old_files now maxA (rmdirLoop false (dirPaths (purgeLoop now false (find_old_files now maxA fs) fs).fs) (purgeLoop now false (find_old_files now maxA fs) fs).fs).2) (rmdirLoop false (dirPaths (purgeLoop now false (find_old_files now maxA fs) fs).fs) (purgeLoop now false (find_old_files now maxA fs) fs).fs).2).fs)
      (purgeLoop now false (find_old_files now maxA (rmdirLoop false (dirPaths (purgeLoop now false (find_old_files now maxA fs) fs).fs) (purgeLoop now false (find_old_files now maxA fs) fs).fs).2) (rmdirLoop false (dirPaths (purgeLoop now false (find_old_files now maxA fs) fs).fs) (purgeLoop now false (find_old_files now maxA fs) fs).fs).2).fs).1 = []
    rw [hP2]
    show (rmdirLoop false (dirPaths (rmdirLoop false (dirPaths (purgeLoop now false (find_old_files now maxA fs) fs).fs) (purgeLoop now false (find_old_files now maxA fs) fs).fs).2) (rmdirLoop false (dirPaths (purgeLoop now false (find_old_files now maxA fs) fs).fs) (purgeLoop now false (find_old_files now maxA fs) fs).fs).2).1 = []
    rw [hnoop]
  have hfs3 : (run_purge ⟨maxA, intv, false⟩ now (rmdirLoop false (dirPaths (purgeLoop now false (find_old_files now maxA fs) fs).fs) (purgeLoop now false (find_old_files now maxA fs) fs).fs).2).fs = (rmdirLoop false (dirPaths (purgeLoop now false (find_old_files now maxA fs) fs).fs) (purgeLoop now false (find_old_files now maxA fs) fs).fs).2 := by
    show (rmdirLoop false (dirPaths (purgeLoop now false (find_old_files now maxA (rmdirLoop false (dirPaths (purgeLoop now false (find_old_files now maxA fs) fs).fs) (purgeLoop now false (find_old_files now maxA fs) fs).fs).2) (rmdirLoop false (dirPaths (purgeLoop now false (find_old_files now maxA fs) fs).fs) (purgeLoop now false (find_old_files now maxA fs) fs).fs).2).fs)
      (purgeLoop now false (find_old_files now maxA (rmdirLoop false (dirPaths (purgeLoop now false (find_old_files now maxA fs) fs).fs) (purgeLoop now false (find_old_files now maxA fs) fs).fs).2) (rmdirLoop false (dirPaths (purgeLoop now false (find_old_files now maxA fs) fs).fs) (purgeLoop now false (find_old_files now maxA fs) fs).fs).2).fs).2 = (rmdirLoop false (dirPaths (purgeLoop now false (find_old_files now maxA fs) fs).fs) (purgeLoop now false (find_old_files now maxA fs) fs).fs).2
    rw [hP2]
    show (rmdirLoop false (dirPaths (rmdirLoop false (dirPaths (purgeLoop now false (find_old_files now maxA fs) fs).fs) (purgeLoop now false (find_old_files now maxA fs) fs).fs).2) (rmdirLoop false (dirPaths (purgeLoop now false (find_old_files now maxA fs) fs).fs) (purgeLoop now false (find_old_files now maxA fs) fs).fs).2).2 = (rmdirLoop false (dirPaths (purgeLoop now false (find_old_files now maxA fs) fs).fs) (purgeLoop now false (find_old_files now maxA fs) fs).fs).2
    rw [hnoop]
  refine ⟨hdel2, hrem2, ?_, hfs3⟩
  have hkey : (run_purge ⟨maxA, intv, false⟩ now (rmdirLoop false (dirPaths (purgeLoop now false (find_old_files now maxA fs) fs).fs) (purgeLoop now false (find_old_files now maxA fs) fs).fs).2).notification =
      if 0 < (run_purge ⟨maxA, intv, false⟩ now (rmdirLoop false (dirPaths (purgeLoop now false (find_old_files now maxA fs) fs).fs) (purgeLoop now false (find_old_files now maxA fs) fs).fs).2).results.deleted_files.length
          || 0 < (run_purge ⟨maxA, intv, false⟩ now (rmdirLoop false (dirPaths (purgeLoop now false (find_old_files now maxA fs) fs).fs) (purgeLoop now false (find_old_files now maxA fs) fs).fs).2).results.removed_directories.length then
        send_purge_notification false (run_purge ⟨maxA, intv, false⟩ now (rmdirLoop false (dirPaths (purgeLoop now false (find_old_files now maxA fs) fs).fs) (purgeLoop now false (find_old_files now maxA fs) fs).fs).2).results
      else send_no_action_notification ⟨maxA, intv, false⟩ now := rfl
  have hb : (decide (0 < (run_purge ⟨maxA, intv, false⟩ now (rmdirLoop false (dirPaths (purgeLoop now false (find_old_files now maxA fs) fs).fs) (purgeLoop now false (find_old_files now maxA fs) fs).fs).2).results.deleted_files.length)
      || decide (0 < (run_purge ⟨maxA, intv, false⟩ now (rmdirLoop false (dirPaths (purgeLoop now false (find_old_files now maxA fs) fs).fs) (purgeLoop now false (find_old_files now maxA fs) fs).fs).2).results.removed_directories.length)) = false := by
    simp [hdel2, hrem2]
  rw [hkey, hb]
  simp


theorem claim9_witness :
    ((⟨30, 3600, false⟩ : Config).dry_run = false ∧ wf fsMixed = true) ∧
      ((run_purge ⟨30, 3600, false⟩ 3456000
          (run_purge ⟨30, 3600, false⟩ 3456000 fsMixed).fs).results.deleted_files = [] ∧
        (run_purge ⟨30, 3600, false⟩ 3456000
            (run_purge ⟨30, 3600, false⟩ 3456000 fsMixed).fs).results.removed_directories = [] ∧
        (run_purge ⟨30, 3600, false⟩ 3456000
            (run_purge ⟨30, 3600, false⟩ 3456000 fsMixed).fs).notification =
          send_no_action_notification ⟨30, 3600, false⟩ 3456000 ∧
        (run_purge ⟨30, 3600, false⟩ 3456000
            (run_purge ⟨30, 3600, false⟩ 3456000 fsMixed).fs).fs =
          (run_purge ⟨30, 3600, false⟩ 3456000 fsMixed).fs) :=
  ⟨⟨rfl, by decide⟩,
    claim9_idempotent_cycle ⟨30, 3600, false⟩ rfl 3456000 fsMixed (by decide)⟩

/-! ### Claim C6 -/

/-- C6: for every candidate the orchestrator captures the metadata record
against the filesystem as it stood before that candidate was deleted — so
every successfully deleted file has its size and age in the report although
the file itself is gone afterwards; if the metadata `stat` fails the record
falls back to the unknown-size placeholder with age 0; and deletion is still
attempted for every candidate, each landing in the deleted or the failed
list. -/
theorem claim6_metadata_capture (cfg : Config) (now : ℤ) (fs : FSTree)
    (hwf : wf fs = true) :
    (run_purge cfg now fs).results.deleted_files_info =
      (run_purge cfg now fs).results.deleted_files.map (capture_file_info now fs) ∧
      (∀ p ∈ find_old_files now cfg.max_age_days fs,
        p ∈ (run_purge cfg now fs).results.deleted_files ∨
          p ∈ (run_purge cfg now fs).results.failed_files) ∧
      (∀ p, metaStatFails fs p = true →
        capture_file_info now fs p = ⟨p, format_file_path p, .unknown, 0⟩) := by
  obtain ⟨maxA, intv, dr⟩ := cfg
  cases dr
  · have hspec := purgeLoop_real_spec now (find_old_files now maxA fs) fs hwf
      (find_old_files_nodup now maxA hwf)
      (find_old_files_sound now maxA hwf)
    refine ⟨?_, ?_, fun p h => capture_file_info_fallback now fs p h⟩
    · show (purgeLoop now false (find_old_files now maxA fs) fs).infos =
        (purgeLoop now false (find_old_files now maxA fs) fs).deleted.map
          (capture_file_info now fs)
      rw [hspec.2.2.1, hspec.1]
    · intro p hp
      by_cases hf : unlinkWouldFail fs p = true
      · right
        show p ∈ (purgeLoop now false (find_old_files now maxA fs) fs).failed
        rw [hspec.2.1]
        exact List.mem_filter.mpr ⟨hp, hf⟩
      · left
        show p ∈ (purgeLoop now false (find_old_files now maxA fs) fs).deleted
        rw [hspec.1]
        rw [Bool.not_eq_true] at hf
        exact List.mem_filter.mpr ⟨hp, by simp [hf]⟩
  · refine ⟨?_, ?_, fun p h => capture_file_info_fallback now fs p h⟩
    · show (purgeLoop now true (find_old_files now maxA fs) fs).infos =
        (purgeLoop now true (find_old_files now maxA fs) fs).deleted.map
          (capture_file_info now fs)
      rw [purgeLoop_dry]
    · intro p hp
      left
      show p ∈ (purgeLoop now true (find_old_files now maxA fs) fs).deleted
      rw [purgeLoop_dry]
      exact hp

/-- C6 witness: on a tree with a deletable file, a file whose metadata
`stat` fails and a file whose `unlink` fails, the captured records, the
attempted-deletion property and the fallback record shape all hold. -/
theorem claim6_witness :
    (run_purge ⟨30, 3600, false⟩ 3456000 fsMixed).results.deleted_files_info =
      (run_purge ⟨30, 3600, false⟩ 3456000 fsMixed).results.deleted_files.map
        (capture_file_info 3456000 fsMixed) ∧
      (∀ p ∈ find_old_files 3456000 30 fsMixed,
        p ∈ (run_purge ⟨30, 3600, false⟩ 3456000 fsMixed).results.deleted_files ∨
          p ∈ (run_purge ⟨30, 3600, false⟩ 3456000 fsMixed).results.failed_files) ∧
      (∀ p, metaStatFails fsMixed p = true →
        capture_file_info 3456000 fsMixed p =
          ⟨p, format_file_path p, .unknown, 0⟩) :=
  claim6_metadata_capture ⟨30, 3600, false⟩ 3456000 fsMixed (by decide)

/-! ### Claim C7 -/

/-- C7: in every cycle result the deleted-files list and the failed-files
list are disjoint — each candidate is appended to exactly one of them
according to the outcome of its deletion attempt. -/
theorem claim7_deleted_failed_disjoint (cfg : Config) (now : ℤ) (fs : FSTree)
    (hwf : wf fs = true) :
    ∀ p ∈ (run_purge cfg now fs).results.deleted_files,
      p ∉ (run_purge cfg now fs).results.failed_files := by
  obtain ⟨maxA, intv, dr⟩ := cfg
  cases dr
  · intro p hpd hpf
    have hspec := purgeLoop_real_spec now (find_old_files now maxA fs) fs hwf
      (find_old_files_nodup now maxA hwf)
      (find_old_files_sound now maxA hwf)
    have hpd2 : p ∈ (purgeLoop now false (find_old_files now maxA fs) fs).deleted := hpd
    have hpf2 : p ∈ (purgeLoop now false (find_old_files now maxA fs) fs).failed := hpf
    rw [hspec.1] at hpd2
    rw [hspec.2.1] at hpf2
    have h1 := (List.mem_filter.mp hpd2).2
    have h2 := (List.mem_filter.mp hpf2).2
    rw [h2] at h1
    simp at h1
  · intro p _ hpf
    have hpf2 : p ∈ (purgeLoop now true (find_old_files now maxA fs) fs).failed := hpf
    rw [purgeLoop_dry] at hpf2
    cases hpf2

/-- C7 witness: on the mixed tree one candidate is deleted and one fails,
and no path is in both lists. -/
theorem claim7_witness :
    (wf fsMixed = true ∧
        ["ok.txt"] ∈ (run_purge ⟨30, 3600, false⟩ 3456000 fsMixed).results.deleted_files) ∧
      ["ok.txt"] ∉ (run_purge ⟨30, 3600, false⟩ 3456000 fsMixed).results.failed_files :=
  ⟨⟨by decide, by decide⟩,
    claim7_deleted_failed_disjoint ⟨30, 3600, false⟩ 3456000 fsMixed (by decide)
      ["ok.txt"] (by decide)⟩

/-! ### Claim C1 -/

/-- C1: on a scan in which no entry's `stat` raises, a regular file in the
tree is a candidate of `find_old_files` precisely when its age in days —
`(now - mtime) / 86400` — strictly exceeds the configured threshold; a file
whose age equals the threshold exactly is not a candidate. -/
theorem claim1_candidate_iff_strictly_older (now maxAge : ℤ) (fs : FSTree)
    (hwf : wf fs = true)
    (hclean : ∀ e ∈ rglobEntries [] fs, e.2.raisesScanStat = false)
    (p : Path) (a : FileAttrs) (hp : lookup p fs = some (.file a)) (hpne : p ≠ []) :
    (p ∈ find_old_files now maxAge fs ↔
      get_file_age_days now a.mtime > (maxAge : ℚ)) ∧
      (get_file_age_days now a.mtime = (maxAge : ℚ) →
        p ∉ find_old_files now maxAge fs) := by
  have hscan : find_old_files now maxAge fs =
      ((rglobEntries [] fs).filter (isCandidate now maxAge)).map Prod.fst := by
    rw [find_old_files, scanLoop_eq_takeWhile, takeWhile_eq_self_of_clean hclean]
  have hiff : p ∈ find_old_files now maxAge fs ↔
      get_file_age_days now a.mtime > (maxAge : ℚ) := by
    constructor
    · intro hmem
      rw [hscan] at hmem
      obtain ⟨e, he, hex⟩ := List.mem_map.mp hmem
      obtain ⟨hein, hcand⟩ := List.mem_filter.mp he
      obtain ⟨q, u, hqne, hpath, hlq, hinfo⟩ := rglob_lookup_of_mem fs hwf [] e hein
      rw [List.nil_append] at hpath
      have hq : q = p := by rw [← hpath, hex]
      rw [hq, hp] at hlq
      cases hlq
      rw [isCandidate, Bool.and_eq_true] at hcand
      rw [← hinfo] at hcand
      exact (is_older_than_iff_age_gt now a.mtime maxAge).mp
        (by simpa [FSTree.info, EntryInfo.mtimeOf] using hcand.2)
    · intro hage
      rw [hscan]
      have hbool := (is_older_than_iff_age_gt now a.mtime maxAge).mpr hage
      have hmem := lookup_mem_rglob p fs [] (.file a) hp hpne
      rw [List.nil_append] at hmem
      refine List.mem_map.mpr
        ⟨(p, FSTree.info (.file a)), List.mem_filter.mpr ⟨hmem, ?_⟩, rfl⟩
      rw [isCandidate]
      simp [FSTree.info, EntryInfo.isFileLike, EntryInfo.mtimeOf, hbool]
  refine ⟨hiff, fun heq hmem => ?_⟩
  have := hiff.mp hmem
  rw [heq] at this
  exact lt_irrefl _ this

/-- C1 witness: in the spec scenario (`old.txt` forty days old, `new.txt`
two days old, threshold 30 days) the forty-day-old regular file satisfies
the iff and the exact-boundary exclusion. -/
theorem claim1_witness :
    ((["old.txt"] : Path) ∈ find_old_files 3456000 30 fsScenario ↔
      get_file_age_days 3456000 0 > (30 : ℚ)) ∧
      (get_file_age_days 3456000 0 = (30 : ℚ) →
        (["old.txt"] : Path) ∉ find_old_files 3456000 30 fsScenario) :=
  claim1_candidate_iff_strictly_older 3456000 30 fsScenario (by decide)
    (by decide) ["old.txt"] (cleanAttrs 0 5) rfl (by decide)

/-! ### Claim C2 -/

/-- C2: in a real (non-dry-run) cycle over `root/a/b/c` containing only one
stale file, one deepest-first pass cascades: `a/b/c`, `a/b` and `a` are all
removed (in that order), the stale file is the one deletion, the root path
`[]` is never among the removed directories, and the target root itself
survives the cycle (empty but present). -/
theorem claim2_cascading_removal (maxAge iv now mtime : ℤ) (sz : ℕ)
    (hstale : get_file_age_days now mtime > (maxAge : ℚ)) :
    (run_purge ⟨maxAge, iv, false⟩ now (fsChain mtime sz)).results.removed_directories
        = [["a", "b", "c"], ["a", "b"], ["a"]] ∧
      (run_purge ⟨maxAge, iv, false⟩ now (fsChain mtime sz)).results.deleted_files
        = [["a", "b", "c", "old.txt"]] ∧
      (run_purge ⟨maxAge, iv, false⟩ now (fsChain mtime sz)).fs = .dir false .nil ∧
      [] ∉ (run_purge ⟨maxAge, iv, false⟩ now (fsChain mtime sz)).results.removed_directories := by
  have hbool : is_older_than now mtime maxAge = true :=
    (is_older_than_iff_age_gt now mtime maxAge).mpr hstale
  have hfind : find_old_files now maxAge (fsChain mtime sz) = [["a", "b", "c", "old.txt"]] := by
    simp [find_old_files, fsChain, rglobEntries, rglobSub, childEntries, scanLoop, isCandidate,
      EntryInfo.raisesScanStat, EntryInfo.isFileLike, EntryInfo.mtimeOf, FSTree.info,
      cleanAttrs, hbool]
  refine ⟨?_, ?_, ?_, ?_⟩ <;>
    (simp only [run_purge, hfind]
     simp [fsChain, cleanAttrs, purgeLoop, capture_file_info, delete_file,
       lookup, FSList.childNamed, removePath, FSList.removeName, FSList.replaceName,
       remove_empty_directories, dirPaths, rglobEntries, rglobSub, childEntries, FSTree.info,
       sortByDepthDesc, insertByDepth, rmdirLoop, FSList.isNil])

/-- C2 witness: the cascade instantiated at threshold 30 days with a file
40 days old. -/
theorem claim2_witness :
    (run_purge ⟨30, 3600, false⟩ 3456000 (fsChain 0 5)).results.removed_directories
        = [["a", "b", "c"], ["a", "b"], ["a"]] ∧
      (run_purge ⟨30, 3600, false⟩ 3456000 (fsChain 0 5)).results.deleted_files
        = [["a", "b", "c", "old.txt"]] ∧
      (run_purge ⟨30, 3600, false⟩ 3456000 (fsChain 0 5)).fs = .dir false .nil ∧
      [] ∉ (run_purge ⟨30, 3600, false⟩ 3456000 (fsChain 0 5)).results.removed_directories :=
  claim2_cascading_removal 30 3600 3456000 0 5
    ((is_older_than_iff_age_gt 3456000 0 30).mp (by decide))

/-! ### Claim C4 -/

/-- C4 counterexample: in `fsScanErr` an I/O error is raised during the scan
(entry `b` has a raising `stat`), yet `find_old_files` does not yield an
empty candidate set — it returns the partial set containing the old file `a`
collected before the error, contradicting the claim that an erroring scan
yields an empty set. -/
theorem claim4_counterexample :
    (∃ e ∈ rglobEntries [] fsScanErr, e.2.raisesScanStat = true) ∧
      find_old_files 3456000 30 fsScanErr = [["a"]] := by
  exact ⟨by decide, rfl⟩

/-- C4 (amended): whenever an I/O error is raised during the directory-tree
scan, `find_old_files` returns the partial candidate list collected before
the error — exactly the old files among the entries preceding the first one
whose `stat` raises — and the cycle continues with that list rather than
crashing (the error is caught at purge.py:93-94). -/
theorem claim4_partial_scan (now maxAge : ℤ) (fs : FSTree) :
    find_old_files now maxAge fs =
      (((rglobEntries [] fs).takeWhile fun e => !e.2.raisesScanStat).filter
        (isCandidate now maxAge)).map Prod.fst := by
  rw [find_old_files, scanLoop_eq_takeWhile]

/-! ### Claim C8 -/

/-- C8: at the end of every cycle exactly one notification is dispatched:
the detailed purge report if and only if at least one file was deleted or at
least one directory removed; the distinct no-action notification if and only
if neither happened; any dispatched report is green (`0x00ff00`) exactly
when the failed list is empty and orange (`0xffa500`) otherwise; and the
no-action notification is gray (`0x808080`) and names the next scheduled
check time `now` plus the configured interval. -/
theorem claim8_notification_dispatch (cfg : Config) (now : ℤ) (fs : FSTree) :
    (((run_purge cfg now fs).results.deleted_files ≠ [] ∨
        (run_purge cfg now fs).results.removed_directories ≠ []) ↔
      (run_purge cfg now fs).notification =
        send_purge_notification cfg.dry_run (run_purge cfg now fs).results) ∧
    (((run_purge cfg now fs).results.deleted_files = [] ∧
        (run_purge cfg now fs).results.removed_directories = []) ↔
      (run_purge cfg now fs).notification = send_no_action_notification cfg now) ∧
    (∀ r : PurgeReport, (run_purge cfg now fs).notification = .report r →
      r.color =
        if (run_purge cfg now fs).results.failed_files = [] then 0x00ff00
        else 0xffa500) ∧
    send_no_action_notification cfg now =
      .noAction "File Purge - Keine Aktion erforderlich" cfg.max_age_days
        (now + cfg.check_interval_seconds) 0x808080 := by
  have hrep : ∀ dr r, send_purge_notification dr r ≠ send_no_action_notification cfg now := by
    intro dr r h
    simp [send_purge_notification, send_no_action_notification] at h
  have hkey : (run_purge cfg now fs).notification =
      if 0 < (run_purge cfg now fs).results.deleted_files.length
          || 0 < (run_purge cfg now fs).results.removed_directories.length then
        send_purge_notification cfg.dry_run (run_purge cfg now fs).results
      else send_no_action_notification cfg now := rfl
  by_cases hcond : (0 < (run_purge cfg now fs).results.deleted_files.length ∨
      0 < (run_purge cfg now fs).results.removed_directories.length)
  · have hb : (decide (0 < (run_purge cfg now fs).results.deleted_files.length)
        || decide (0 < (run_purge cfg now fs).results.removed_directories.length)) = true := by
      rcases hcond with h | h <;> simp [h]
    have hA : (run_purge cfg now fs).notification =
        send_purge_notification cfg.dry_run (run_purge cfg now fs).results := by
      rw [hkey, hb]
      simp
    refine ⟨⟨fun _ => hA, fun _ => ?_⟩,
      ⟨fun h => absurd hcond (by simp [h.1, h.2]), fun h => ?_⟩, fun r hr => ?_, rfl⟩
    · rcases hcond with h | h
      · exact Or.inl (List.length_pos.mp h)
      · exact Or.inr (List.length_pos.mp h)
    · rw [hA] at h
      exact absurd h (hrep _ _)
    · rw [hA, send_purge_notification] at hr
      rw [← Notification.report.inj hr]
      by_cases hf : (run_purge cfg now fs).results.failed_files = []
      · simp [hf]
      · simp [hf, List.length_eq_zero]
  · push_neg at hcond
    have hd : (run_purge cfg now fs).results.deleted_files = [] :=
      List.eq_nil_of_length_eq_zero (by omega)
    have hr2 : (run_purge cfg now fs).results.removed_directories = [] :=
      List.eq_nil_of_length_eq_zero (by omega)
    have hb : (decide (0 < (run_purge cfg now fs).results.deleted_files.length)
        || decide (0 < (run_purge cfg now fs).results.removed_directories.length)) = false := by
      simp [hd, hr2]
    have hB : (run_purge cfg now fs).notification = send_no_action_notification cfg now := by
      rw [hkey, hb]
      simp
    refine ⟨⟨fun h => ?_, fun h => ?_⟩, ⟨fun _ => hB, fun _ => ⟨hd, hr2⟩⟩, fun r hr => ?_, rfl⟩
    · rcases h with h | h
      · exact absurd hd h
      · exact absurd hr2 h
    · rw [hB] at h
      exact absurd h.symm (hrep _ _)
    · rw [hB, send_no_action_notification] at hr
      exact absurd hr (by simp)

/-! ### Claim C10 -/

/-- C10: in a cycle where at least one candidate failed to delete but
nothing was deleted and no directory was removed, `run_purge` dispatches the
neutral no-action notification — whose payload carries no failure
information — and never the detailed report, so the failures are visible
only in the logs. -/
theorem claim10_failures_hidden (cfg : Config) (now : ℤ) (fs : FSTree)
    (hfail : (run_purge cfg now fs).results.failed_files ≠ [])
    (hdel : (run_purge cfg now fs).results.deleted_files = [])
    (hdirs : (run_purge cfg now fs).results.removed_directories = []) :
    (run_purge cfg now fs).notification = send_no_action_notification cfg now ∧
      ∀ r : PurgeReport, (run_purge cfg now fs).notification ≠ .report r := by
  have hkey : (run_purge cfg now fs).notification =
      if 0 < (run_purge cfg now fs).results.deleted_files.length
          || 0 < (run_purge cfg now fs).results.removed_directories.length then
        send_purge_notification cfg.dry_run (run_purge cfg now fs).results
      else send_no_action_notification cfg now := rfl
  have hb : (decide (0 < (run_purge cfg now fs).results.deleted_files.length)
      || decide (0 < (run_purge cfg now fs).results.removed_directories.length)) = false := by
    simp [hdel, hdirs]
  have hB : (run_purge cfg now fs).notification = send_no_action_notification cfg now := by
    rw [hkey, hb]
    simp
  refine ⟨hB, fun r hr => ?_⟩
  rw [hB, send_no_action_notification] at hr
  exact absurd hr (by simp)

/-- C10 witness: on `fsUnlinkFail` the only candidate fails to delete,
nothing is removed, and the cycle dispatches the no-action notification. -/
theorem claim10_witness :
    (run_purge ⟨30, 3600, false⟩ 3456000 fsUnlinkFail).notification =
        send_no_action_notification ⟨30, 3600, false⟩ 3456000 ∧
      ∀ r : PurgeReport,
        (run_purge ⟨30, 3600, false⟩ 3456000 fsUnlinkFail).notification ≠ .report r :=
  claim10_failures_hidden ⟨30, 3600, false⟩ 3456000 fsUnlinkFail (by decide) rfl rfl

/-! ### Claim C3 -/

/-- C3 counterexample: on `fsUnlinkFail` (one old file `f` whose `unlink`
fails) a dry-run cycle leaves the tree untouched and reports `f` as deleted,
but a real run deletes nothing — it reports `f` as failed — so the dry-run
report does not list the same deleted-file candidates a real run would have
deleted. -/
theorem claim3_counterexample :
    (run_purge ⟨30, 3600, true⟩ 3456000 fsUnlinkFail).fs = fsUnlinkFail ∧
      (run_purge ⟨30, 3600, true⟩ 3456000 fsUnlinkFail).results.deleted_files = [["f"]] ∧
      (run_purge ⟨30, 3600, false⟩ 3456000 fsUnlinkFail).results.deleted_files = [] ∧
      (run_purge ⟨30, 3600, false⟩ 3456000 fsUnlinkFail).results.failed_files = [["f"]] :=
  ⟨rfl, rfl, rfl, rfl⟩

/-- C3 (amended): with the dry-run flag set, no file is unlinked and no
directory is removed — the cycle returns the filesystem exactly as it found
it — `delete_file` reports success for every candidate, so the report lists
every candidate as deleted and no failures; and these are the same
deleted-file candidates a real run would have deleted whenever the real run
records no deletion failure. -/
theorem claim3_dry_run_frame (cfg : Config) (hdry : cfg.dry_run = true)
    (now : ℤ) (fs : FSTree) :
    (run_purge cfg now fs).fs = fs ∧
      (run_purge cfg now fs).results.deleted_files =
        find_old_files now cfg.max_age_days fs ∧
      (run_purge cfg now fs).results.failed_files = [] ∧
      ((run_purge ⟨cfg.max_age_days, cfg.check_interval_seconds, false⟩ now fs).results.failed_files = [] →
        (run_purge cfg now fs).results.deleted_files =
          (run_purge ⟨cfg.max_age_days, cfg.check_interval_seconds, false⟩ now fs).results.deleted_files) := by
  refine ⟨?_, ?_, ?_, ?_⟩
  · simp [run_purge, hdry, purgeLoop_dry, remove_empty_directories, rmdirLoop_dry]
  · simp [run_purge, hdry, purgeLoop_dry]
  · simp [run_purge, hdry, purgeLoop_dry]
  · intro hfail
    have hreal :
        (run_purge ⟨cfg.max_age_days, cfg.check_interval_seconds, false⟩ now fs).results.deleted_files =
          find_old_files now cfg.max_age_days fs := by
      simp only [run_purge] at hfail ⊢
      exact purgeLoop_failed_nil now false _ fs hfail
    rw [hreal]
    simp [run_purge, hdry, purgeLoop_dry]

/-- C3 witness: the amended dry-run claim instantiated on the concrete chain
`root/a/b/c/old.txt`. -/
theorem claim3_witness :
    (run_purge ⟨30, 3600, true⟩ 3456000 (fsChain 0 5)).fs = fsChain 0 5 ∧
      (run_purge ⟨30, 3600, true⟩ 3456000 (fsChain 0 5)).results.deleted_files =
        find_old_files 3456000 30 (fsChain 0 5) ∧
      (run_purge ⟨30, 3600, true⟩ 3456000 (fsChain 0 5)).results.failed_files = [] ∧
      ((run_purge ⟨30, 3600, false⟩ 3456000 (fsChain 0 5)).results.failed_files = [] →
        (run_purge ⟨30, 3600, true⟩ 3456000 (fsChain 0 5)).results.deleted_files =
          (run_purge ⟨30, 3600, false⟩ 3456000 (fsChain 0 5)).results.deleted_files) :=
  claim3_dry_run_frame ⟨30, 3600, true⟩ rfl 3456000 (fsChain 0 5)

/-! ### Claim C5 -/

/-- C5 counterexample: in `fsLink` the symlink `lnk` resolving to an old
regular file IS yielded as a candidate (so not only regular files are
yielded, and symlinks are not skipped), and in `fsAbort` a permission-denied
entry `x` makes the scan abort, dropping the clean old file `y` that follows
it (so such an entry does cause the scan of the remaining entries to
abort). -/
theorem claim5_counterexample :
    find_old_files 3456000 30 fsLink = [["lnk"]] ∧
      lookup ["lnk"] fsLink = some (.linkToFile (cleanAttrs 0 1)) ∧
      find_old_files 3456000 30 fsAbort = [] ∧
      lookup ["y"] fsAbort = some (.file (cleanAttrs 0 1)) ∧
      is_older_than 3456000 0 30 = true :=
  ⟨rfl, rfl, rfl, rfl, rfl⟩

/-- C5 (amended): during the age scan, entries that fail the `is_file` test
(directories, special files, broken symlinks) are skipped silently, with no
logged warning; symbolic links resolving to regular files pass `is_file` and
are yielded like regular files; every yielded candidate is an entry passing
`is_file` whose age strictly exceeds the threshold; and an entry whose
scan-time `stat` raises (e.g. permission denied) aborts the scan of all
remaining entries instead of being individually skipped. -/
theorem claim5_scan_yield (now maxAge : ℤ) (fs : FSTree) :
    (∀ p ∈ find_old_files now maxAge fs,
      ∃ e ∈ rglobEntries [] fs, e.1 = p ∧ e.2.isFileLike = true ∧
        is_older_than now e.2.mtimeOf maxAge = true) ∧
    (∀ (l1 l2 : List (Path × EntryInfo)) (e : Path × EntryInfo),
      rglobEntries [] fs = l1 ++ e :: l2 → e.2.raisesScanStat = true →
      find_old_files now maxAge fs = scanLoop now maxAge l1) := by
  constructor
  · intro p hp
    exact mem_find_old_files now maxAge fs p hp
  · intro l1 l2 e hsplit hr
    rw [find_old_files, hsplit, scanLoop_append_raises now maxAge l1 l2 e hr]

/-- C5 witness: the amended claim applied to the concrete trees `fsLink`
(the symlink is yielded as a file-like old entry) and `fsAbort` (the raising
entry `x` reduces the scan to the empty prefix before it). -/
theorem claim5_witness :
    (∃ e ∈ rglobEntries [] fsLink, e.1 = ["lnk"] ∧ e.2.isFileLike = true ∧
      is_older_than 3456000 e.2.mtimeOf 30 = true) ∧
      find_old_files 3456000 30 fsAbort = scanLoop 3456000 30 [] :=
  ⟨(claim5_scan_yield 3456000 30 fsLink).1 ["lnk"] (by decide),
    (claim5_scan_yield 3456000 30 fsAbort).2 []
      [(["y"], .file (cleanAttrs 0 1))] (["x"], .file ⟨0, 1, true, false, false⟩)
      rfl rfl⟩

end FilePurge
